import Mathlib

/-!
# Seam carving: energy, seam search and seam removal

A shallow embedding of `SeamCarver.cpp` (dual-gradient energy, the dynamic
programme of `FindVerticalSeam` with its backtrace, the generic routine `FindSeam`,
and the in-place compaction of `RemoveSeam`) together with theorems about it.

Conventions of the embedding.

* `m_table` is indexed `m_table[column][row]`, as in the source: the width is the
  number of columns, the height is the size of column 0.
* Every indexed access is checked: a read or write outside a vector, a `pop_back`
  on an empty vector and the use of a never-assigned local make the operation
  return `none`.
* `double` values are elements of an arbitrary linearly ordered field `α` and
  `std::sqrt` is a parameter `sq : α → α`; the theorems about exact real
  arithmetic take `α = ℝ` and `sq = Real.sqrt`.
* `size_t` subtraction wraps modulo `2 ^ 64` (`szSub`).
-/

namespace SeamCarving

/-! ## Data model -/

/-- Modelled from the spec: the pixel type `Image::Pixel` of `Image.hpp`, which is
not part of the sources; three 8-bit unsigned channels. -/
structure Pixel where
  m_red : Fin 256
  m_green : Fin 256
  m_blue : Fin 256
deriving DecidableEq

/-- Modelled from the spec: the class `Image` of `Image.hpp`; the source reads its
member `m_table` as a vector of columns, each a vector of pixels. -/
structure Image where
  m_table : List (List Pixel)
deriving DecidableEq

/-- Checked read of `t[c][r]`. -/
def rd {β : Type} (t : List (List β)) (c r : Nat) : Option β :=
  match t[c]? with
  | none => none
  | some col => col[r]?

/-- Checked write `t[c][r] = v`. -/
def wr {β : Type} (t : List (List β)) (c r : Nat) (v : β) : Option (List (List β)) :=
  match t[c]? with
  | none => none
  | some col => if r < col.length then some (t.set c (col.set r v)) else none

/-- Subtraction of `size_t` values: wraps modulo `2 ^ 64` on underflow. -/
def szSub (a b : Nat) : Nat :=
  if b ≤ a then a - b else a + 2 ^ 64 - b

/-- The loop `for (size_t i = a; i < a + n; ++i) body`, the state threaded through. -/
def forLoop {σ : Type} (body : Nat → σ → Option σ) : Nat → Nat → σ → Option σ
  | 0, _, s => some s
  | n + 1, i, s =>
    match body i s with
    | none => none
    | some s' => forLoop body n (i + 1) s'

/-- The loop `for (size_t i = a; i > 0; --i) body`. -/
def downLoop {σ : Type} (body : Nat → σ → Option σ) : Nat → σ → Option σ
  | 0, s => some s
  | i + 1, s =>
    match body (i + 1) s with
    | none => none
    | some s' => downLoop body i s'

/-! ## Accessors -/

/-- `SeamCarver::GetImageWidth`: `m_image.m_table.size()`. -/
def GetImageWidth (img : Image) : Nat :=
  img.m_table.length

/-- `SeamCarver::GetImageHeight`: `m_image.m_table[0].size()`. -/
def GetImageHeight (img : Image) : Option Nat :=
  match img.m_table[0]? with
  | none => none
  | some col => some col.length

/-- Modelled from the spec: `Image::GetPixel(column, row)` of `Image.hpp`, the pixel
at `(column, row)` for `0 ≤ column < width`, `0 ≤ row < height`. -/
def GetPixel (img : Image) (columnId rowId : Nat) : Option Pixel :=
  rd img.m_table columnId rowId

/-! ## Energy -/

section Energy

variable {α : Type} [LinearOrderedField α]

/-- `Delta`: the channels are promoted to `int` before the subtraction, the sum of
the three squares is converted to `double`. -/
def Delta (left right : Pixel) : α :=
  let r : Int := (left.m_red.val : Int) - (right.m_red.val : Int)
  let g : Int := (left.m_green.val : Int) - (right.m_green.val : Int)
  let b : Int := (left.m_blue.val : Int) - (right.m_blue.val : Int)
  ((r * r + g * g + b * b : Int) : α)

/-- `SeamCarver::GetPixelEnergy`. -/
def GetPixelEnergy (sq : α → α) (img : Image) (columnId rowId : Nat) : Option α := do
  let left ←
    (if columnId = 0 then GetPixel img (szSub (GetImageWidth img) 1) rowId
     else GetPixel img (columnId - 1) rowId)
  let right ←
    (if columnId = szSub (GetImageWidth img) 1 then GetPixel img 0 rowId
     else GetPixel img (columnId + 1) rowId)
  let h0 ← GetImageHeight img
  let up ←
    (if rowId = 0 then GetPixel img columnId (szSub h0 1)
     else GetPixel img columnId (rowId - 1))
  let h1 ← GetImageHeight img
  let down ←
    (if rowId = szSub h1 1 then GetPixel img columnId 0
     else GetPixel img columnId (rowId + 1))
  some (sq (Delta left right + Delta up down))

end Energy

/-! ## Seam search -/

section Search

variable {α : Type} [LinearOrderedField α]

/-- The constant `(double)INT64_MAX`. -/
def INT64_MAX : α := 2 ^ 63 - 1

/-- Inner loop of `BuildSeam`; the stack is a list with its top at the head. -/
def BuildSeam.loop : List Nat → List Nat → List Nat
  | [], seam => seam
  | top :: st, seam => BuildSeam.loop st (seam ++ [top])

/-- `BuildSeam`: pops the stack into a vector, top first. -/
def BuildSeam (st : List Nat) : List Nat :=
  BuildSeam.loop st []

/-- Body of the first loop of `FindVerticalSeam`: `dp[i][0] = GetPixelEnergy(i, 0)`. -/
def firstRowStep (sq : α → α) (img : Image) (i : Nat) (dp : List (List α)) :
    Option (List (List α)) := do
  let e ← GetPixelEnergy sq img i 0
  wr dp i 0 e

/-- Body of the inner loop of the forward pass (columns `1 .. width - 2`). -/
def innerStep (sq : α → α) (img : Image) (i j : Nat) (dp : List (List α)) :
    Option (List (List α)) := do
  let x ← rd dp j (i - 1)
  let y ← rd dp (j + 1) (i - 1)
  let z ← rd dp (j - 1) (i - 1)
  let e ← GetPixelEnergy sq img j i
  wr dp j i (min x (min y z) + e)

/-- Body of the forward pass of `FindVerticalSeam` for row `i`. -/
def rowStep (sq : α → α) (img : Image) (width : Nat) (i : Nat) (dp : List (List α)) :
    Option (List (List α)) := do
  let a ← rd dp 0 (i - 1)
  let b ← rd dp 1 (i - 1)
  let e ← GetPixelEnergy sq img 0 i
  let dp ← wr dp 0 i (min a b + e)
  let dp ← forLoop (innerStep sq img i) (szSub width 1 - 1) 1 dp
  let a ← rd dp (szSub width 1) (i - 1)
  let b ← rd dp (szSub width 2) (i - 1)
  let e ← GetPixelEnergy sq img (szSub width 1) i
  wr dp (szSub width 1) i (min a b + e)

/-- Body of the anchor scan: `value = min(value, dp[i][height - 1])`, then
`start = value == dp[i][height - 1] ? i : start`.  The local `start` is declared
without an initial value: it is `none` until first assigned, and reading it before
that fails. -/
def anchorStep (height : Nat) (dp : List (List α)) (i : Nat) (s : α × Option Nat) :
    Option (α × Option Nat) := do
  let d ← rd dp i (szSub height 1)
  let value := min s.1 d
  let d' ← rd dp i (szSub height 1)
  if value = d' then some (value, some i)
  else
    match s.2 with
    | none => none
    | some start => some (value, some start)

/-- The condition `start != 0 && current == dp[start - 1][i - 1]`; the table is
read only when `start != 0`. -/
def leftTest (dp : List (List α)) (start i : Nat) (current : α) : Option Bool :=
  if start ≠ 0 then
    match rd dp (start - 1) (i - 1) with
    | none => none
    | some l => some (decide (current = l))
  else some false

/-- The condition `start != width - 1 && current == dp[start + 1][i - 1] &&
current != dp[start][i - 1]`, evaluated left to right with short circuit. -/
def rightTest (width : Nat) (dp : List (List α)) (start i : Nat) (current : α) :
    Option Bool :=
  if start ≠ szSub width 1 then
    match rd dp (start + 1) (i - 1) with
    | none => none
    | some r =>
      if current = r then
        match rd dp start (i - 1) with
        | none => none
        | some m => some (decide (current ≠ m))
      else some false
  else some false

/-- Body of the backtrace loop of `FindVerticalSeam`; the state is `start` and the
stack. -/
def traceStep (sq : α → α) (img : Image) (width : Nat) (dp : List (List α)) (i : Nat)
    (s : Nat × List Nat) : Option (Nat × List Nat) := do
  let start := s.1
  let st := start :: s.2
  let d ← rd dp start i
  let e ← GetPixelEnergy sq img start i
  let current := d - e
  let goLeft ← leftTest dp start i current
  if goLeft then some (start - 1, st)
  else
    let goRight ← rightTest width dp start i current
    if goRight then some (start + 1, st) else some (start, st)

/-- `SeamCarver::FindVerticalSeam`. -/
def FindVerticalSeam (sq : α → α) (img : Image) : Option (List Nat) := do
  let height ← GetImageHeight img
  let width := GetImageWidth img
  let dp : List (List α) := List.replicate width (List.replicate height 0)
  let dp ← forLoop (firstRowStep sq img) width 0 dp
  let dp ← forLoop (rowStep sq img width) (height - 1) 1 dp
  let scan ← forLoop (anchorStep height dp) width 0 (INT64_MAX, none)
  let start ← scan.2
  let s ← downLoop (traceStep sq img width dp) (szSub height 1) (start, [])
  some (BuildSeam (s.1 :: s.2))

/-- `SeamCarver::FindHorizontalSeam`: the body is empty, control reaches the end of
the function without a `return`, so no seam is produced. -/
def FindHorizontalSeam (_img : Image) : Option (List Nat) :=
  none

end Search

/-! ## Seam removal -/

/-- `v.pop_back()`; fails on an empty vector. -/
def popBack {β : Type} (v : List β) : Option (List β) :=
  if v.length = 0 then none else some v.dropLast

/-- Body of the inner loop of `RemoveSeam`: one shift. -/
def shiftStep (isHorizontal : Bool) (i j : Nat) (img : Image) : Option Image :=
  if isHorizontal then do
    let v ← rd img.m_table i (j + 1)
    let t ← wr img.m_table i j v
    some ⟨t⟩
  else do
    let v ← rd img.m_table (j + 1) i
    let t ← wr img.m_table j i v
    some ⟨t⟩

/-- Body of the outer loop of `RemoveSeam`.  The bound of the inner loop,
`(isHorizontal ? GetImageHeight() : GetImageWidth()) - 1`, is taken on the image as
it is when the inner loop starts: the inner body only assigns elements, which changes
neither size (`shiftStep_sizes`). -/
def removeStep (seam : List Nat) (isHorizontal : Bool) (i : Nat) (img : Image) :
    Option Image := do
  let s ← seam[i]?
  let bound ← (if isHorizontal then GetImageHeight img else some (GetImageWidth img))
  let img ← forLoop (shiftStep isHorizontal i) (szSub bound 1 - s) s img
  if isHorizontal then do
    let col ← img.m_table[i]?
    let col ← popBack col
    some ⟨img.m_table.set i col⟩
  else some img

/-- `SeamCarver::RemoveSeam`.  The bound of the outer loop is taken on entry: its
body changes neither the number of columns in the horizontal case nor the size of
column 0 in the vertical case (`removeStep_bound`). -/
def RemoveSeam (img : Image) (seam : List Nat) (isHorizontal : Bool) : Option Image := do
  let n ← (if isHorizontal then some (GetImageWidth img) else GetImageHeight img)
  let img ← forLoop (removeStep seam isHorizontal) n 0 img
  if !isHorizontal then do
    let t ← popBack img.m_table
    some ⟨t⟩
  else some img

/-- `SeamCarver::RemoveHorizontalSeam`. -/
def RemoveHorizontalSeam (img : Image) (seam : List Nat) : Option Image :=
  RemoveSeam img seam true

/-- `SeamCarver::RemoveVerticalSeam`. -/
def RemoveVerticalSeam (img : Image) (seam : List Nat) : Option Image :=
  RemoveSeam img seam false

/-! ## Specification vocabulary -/

/-- A table of `w` columns, each of size `h`. -/
def Rect {β : Type} (t : List (List β)) (w h : Nat) : Prop :=
  t.length = w ∧ ∀ col ∈ t, col.length = h

instance : Inhabited Pixel := ⟨⟨0, 0, 0⟩⟩

/-- The pixel at `(c, r)`, total. -/
def pixAt (img : Image) (c r : Nat) : Pixel :=
  (rd img.m_table c r).getD default

section CostSpec

variable {α : Type} [LinearOrderedField α]

/-- The energy of pixel `(c, r)` as a total function (`0` where `GetPixelEnergy`
fails). -/
def energyAt (sq : α → α) (img : Image) (c r : Nat) : α :=
  (GetPixelEnergy sq img c r).getD 0

/-- The cumulative cost that the forward pass of `FindVerticalSeam` stores in
`dp[c][r]`, as a function of the row `r` and the column `c`. -/
def cost (E : Nat → Nat → α) (w : Nat) : Nat → Nat → α
  | 0, c => E c 0
  | r + 1, c =>
    (if c = 0 then min (cost E w r 0) (cost E w r 1)
     else if c = w - 1 then min (cost E w r (w - 1)) (cost E w r (w - 2))
     else min (cost E w r c) (min (cost E w r (c + 1)) (cost E w r (c - 1))))
      + E c (r + 1)

end CostSpec

section TraceSpec

variable {α : Type} [LinearOrderedField α]

/-- The column the backtrace of `FindVerticalSeam` moves to from column `c` of row
`k + 1`: the left neighbour is tested first, then the right one, else the column is
kept. -/
def predCol (E : Nat → Nat → α) (w k c : Nat) : Nat :=
  if c ≠ 0 ∧ cost E w (k + 1) c - E c (k + 1) = cost E w k (c - 1) then c - 1
  else if c ≠ w - 1 ∧ cost E w (k + 1) c - E c (k + 1) = cost E w k (c + 1) ∧
      cost E w (k + 1) c - E c (k + 1) ≠ cost E w k c then c + 1
  else c

/-- The backtrace as a function: from column `start` of row `i`, with the columns
of the rows below on the stack `st`, up to row `0`. -/
def traceBack (E : Nat → Nat → α) (w : Nat) : Nat → Nat → List Nat → List Nat
  | 0, start, st => start :: st
  | k + 1, start, st => traceBack E w k (predCol E w k start) (start :: st)

/-- The sum of `E (l[j]) (r + j)` over the positions `j` of `l`: the energy along a
path whose first entry lies in row `r`. -/
def pathEnergy (E : Nat → Nat → α) : Nat → List Nat → α
  | _, [] => 0
  | r, c :: l => E c r + pathEnergy E (r + 1) l

/-- Adjacent columns: they differ by at most one. -/
def Adj (a b : Nat) : Prop := a ≤ b + 1 ∧ b ≤ a + 1

end TraceSpec

section SeamSpec

variable {α : Type} [LinearOrderedField α]

/-- A connected vertical seam of a grid of width `w` and height `h`: one column
index per row, each in `[0, w)`, adjacent entries differing by at most one. -/
def IsSeam (w h : Nat) (s : List Nat) : Prop :=
  s.length = h ∧ (∀ r, r < h → s.getD r 0 < w) ∧
    ∀ r, r + 1 < h → s.getD (r + 1) 0 ≤ s.getD r 0 + 1 ∧ s.getD r 0 ≤ s.getD (r + 1) 0 + 1

/-- The sum of `GetPixelEnergy(s[j], r + j)` over the entries of `s`; fails when one
of the energies does. -/
def seamEnergyFrom (sq : α → α) (img : Image) : Nat → List Nat → Option α
  | _, [] => some 0
  | r, c :: s =>
    match GetPixelEnergy sq img c r, seamEnergyFrom sq img (r + 1) s with
    | some e, some rest => some (e + rest)
    | _, _ => none

/-- The total energy along a vertical seam: the sum over the rows `r` of
`GetPixelEnergy(s[r], r)`. -/
def seamEnergy (sq : α → α) (img : Image) (s : List Nat) : Option α :=
  seamEnergyFrom sq img 0 s

/-- The energy along a path given last row first. -/
def revEnergy (E : Nat → Nat → α) : List Nat → α
  | [] => 0
  | c :: q => E c q.length + revEnergy E q

end SeamSpec

/-- The sum over the three channels of the squared channel differences
`(p.channel - q.channel) ^ 2`, an exact integer. -/
def channelSqSum (p q : Pixel) : Int :=
  ((p.m_red.val : Int) - (q.m_red.val : Int)) ^ 2 +
  ((p.m_green.val : Int) - (q.m_green.val : Int)) ^ 2 +
  ((p.m_blue.val : Int) - (q.m_blue.val : Int)) ^ 2

/-! ## Example grids -/

/-- The white pixel `(255, 255, 255)`. -/
def white : Pixel := ⟨255, 255, 255⟩

/-- The black pixel `(0, 0, 0)`. -/
def black : Pixel := ⟨0, 0, 0⟩

/-- The grid of width 3 and height `h` whose column 1 is black and whose columns 0
and 2 are white. -/
def stripes (h : Nat) : Image :=
  ⟨[List.replicate h white, List.replicate h black, List.replicate h white]⟩

/-- The grid of width 2 and height 2 with four distinct pixels: column 0 holds the
red values 1, 2 and column 1 the red values 3, 4. -/
def grid2x2 : Image :=
  ⟨[[⟨1, 0, 0⟩, ⟨2, 0, 0⟩], [⟨3, 0, 0⟩, ⟨4, 0, 0⟩]]⟩

/-- The grid of width 1 and height 5 of the spec's boundary scenario. -/
def grid1x5 : Image :=
  ⟨[[white, black, white, black, white]]⟩

section Carving

variable {α : Type} [LinearOrderedField α]

/-- One step of the caller's shrink loop: `seam = FindVerticalSeam();
RemoveVerticalSeam(seam);`. -/
def carveStep (sq : α → α) (img : Image) : Option Image :=
  match FindVerticalSeam sq img with
  | none => none
  | some seam => RemoveVerticalSeam img seam

/-- The step `carveStep` repeated `k` times; fails as soon as one step fails. -/
def carveLoop (sq : α → α) : Nat → Image → Option Image
  | 0, img => some img
  | k + 1, img =>
    match carveStep sq img with
    | none => none
    | some img' => carveLoop sq k img'

end Carving

section SpecCost

variable {α : Type} [LinearOrderedField α]

/-- The cumulative-cost table as the specification words it: `cost[c][0] = E c 0` and
`cost[c][row] = E c row +` the minimum of the in-range values among
`cost[c-1][row-1]` (if `c > 0`), `cost[c][row-1]` and `cost[c+1][row-1]`
(if `c < w - 1`). -/
def specCost (E : Nat → Nat → α) (w : Nat) : Nat → Nat → α
  | c, 0 => E c 0
  | c, row + 1 =>
    E c (row + 1) +
      (if 0 < c ∧ c < w - 1 then
        min (specCost E w (c - 1) row) (min (specCost E w c row) (specCost E w (c + 1) row))
      else if 0 < c then min (specCost E w (c - 1) row) (specCost E w c row)
      else if c < w - 1 then min (specCost E w c row) (specCost E w (c + 1) row)
      else specCost E w c row)

end SpecCost

/-- The grid of width 2 and height 1: a white pixel next to a black one. -/
def grid2x1 : Image :=
  ⟨[[white], [black]]⟩

section GenericSearch

variable {α : Type} [LinearOrderedField α]

/-- Body of the first loop of `FindSeam`.  The statement
`isHorizontal ? dp[0][i] : dp[i][0] = isHorizontal ? GetPixelEnergy(0, i) :
GetPixelEnergy(i, 0);` parses as `isHorizontal ? dp[0][i] : (dp[i][0] = ...)`: in the
horizontal case the element `dp[0][i]` is only evaluated and nothing is assigned. -/
def seamInitStep (sq : α → α) (img : Image) (isHorizontal : Bool) (i : Nat)
    (dp : List (List α)) : Option (List (List α)) :=
  if isHorizontal then
    match rd dp 0 i with
    | none => none
    | some _ => some dp
  else
    match (if isHorizontal then GetPixelEnergy sq img 0 i else GetPixelEnergy sq img i 0) with
    | none => none
    | some e => wr dp i 0 e

/-- Body of the inner loop of the forward pass of `FindSeam`: `dp[i][j] = ...`. -/
def seamInnerStep (sq : α → α) (img : Image) (i j : Nat) (dp : List (List α)) :
    Option (List (List α)) := do
  let x ← rd dp (i - 1) j
  let y ← rd dp (i - 1) (j + 1)
  let z ← rd dp (i - 1) (j - 1)
  let e ← GetPixelEnergy sq img i j
  wr dp i j (min x (min y z) + e)

/-- Body of the forward pass of `FindSeam` for the index `i`. -/
def seamRowStep (sq : α → α) (img : Image) (side1 height : Nat) (i : Nat)
    (dp : List (List α)) : Option (List (List α)) := do
  let a ← rd dp (i - 1) 0
  let b ← rd dp (i - 1) 1
  let e ← GetPixelEnergy sq img i 0
  let dp ← wr dp i 0 (min a b + e)
  let dp ← forLoop (seamInnerStep sq img i) (szSub side1 1 - 1) 1 dp
  let a ← rd dp (i - 1) (szSub height 1)
  let b ← rd dp (i - 1) (szSub height 2)
  let e ← GetPixelEnergy sq img i (szSub height 1)
  wr dp i (szSub height 1) (min a b + e)

/-- Body of the anchor scan of `FindSeam`, over `dp[width - 1][i]`. -/
def seamAnchorStep (width : Nat) (dp : List (List α)) (i : Nat) (s : α × Option Nat) :
    Option (α × Option Nat) := do
  let d ← rd dp (szSub width 1) i
  let value := min s.1 d
  let d' ← rd dp (szSub width 1) i
  if value = d' then some (value, some i)
  else
    match s.2 with
    | none => none
    | some start => some (value, some start)

/-- The condition `start != 0 && current == dp[i - 1][start - 1]` of `FindSeam`. -/
def seamLeftTest (dp : List (List α)) (start i : Nat) (current : α) : Option Bool :=
  if start ≠ 0 then
    match rd dp (i - 1) (start - 1) with
    | none => none
    | some l => some (decide (current = l))
  else some false

/-- The condition `start != side1 - 1 && current == dp[i - 1][start + 1] &&
current != dp[i - 1][start]` of `FindSeam`. -/
def seamRightTest (side1 : Nat) (dp : List (List α)) (start i : Nat) (current : α) :
    Option Bool :=
  if start ≠ szSub side1 1 then
    match rd dp (i - 1) (start + 1) with
    | none => none
    | some r =>
      if current = r then
        match rd dp (i - 1) start with
        | none => none
        | some m => some (decide (current ≠ m))
      else some false
  else some false

/-- Body of the backtrace loop of `FindSeam`. -/
def seamTraceStep (sq : α → α) (img : Image) (side1 : Nat) (dp : List (List α)) (i : Nat)
    (s : Nat × List Nat) : Option (Nat × List Nat) := do
  let start := s.1
  let st := start :: s.2
  let d ← rd dp i start
  let e ← GetPixelEnergy sq img i start
  let current := d - e
  let goLeft ← seamLeftTest dp start i current
  if goLeft then some (start - 1, st)
  else
    let goRight ← seamRightTest side1 dp start i current
    if goRight then some (start + 1, st) else some (start, st)

/-- `SeamCarver::FindSeam`. -/
def FindSeam (sq : α → α) (img : Image) (isHorizontal : Bool) : Option (List Nat) := do
  let height ← GetImageHeight img
  let width := GetImageWidth img
  let side1 := if isHorizontal then height else width
  let side2 := if isHorizontal then width else height
  let dp : List (List α) := List.replicate width (List.replicate height 0)
  let dp ← forLoop (seamInitStep sq img isHorizontal) side1 0 dp
  let dp ← forLoop (seamRowStep sq img side1 height) (side2 - 1) 1 dp
  let scan ← forLoop (seamAnchorStep width dp) side1 0 (INT64_MAX, none)
  let start ← scan.2
  let s ← downLoop (seamTraceStep sq img side1 dp) (szSub side2 1) (start, [])
  some (BuildSeam (s.1 :: s.2))

end GenericSearch

/-- A grid of width 3 and height 2 (three columns of two pixels). -/
def grid3x2 : Image :=
  ⟨[[white, black], [black, white], [white, white]]⟩

/-- A grid of width 4 and height 4; the pixel at column `c`, row `r` has the red
value `10 * c + r`. -/
def grid4x4 : Image :=
  ⟨[[⟨0, 0, 0⟩, ⟨1, 0, 0⟩, ⟨2, 0, 0⟩, ⟨3, 0, 0⟩],
    [⟨10, 0, 0⟩, ⟨11, 0, 0⟩, ⟨12, 0, 0⟩, ⟨13, 0, 0⟩],
    [⟨20, 0, 0⟩, ⟨21, 0, 0⟩, ⟨22, 0, 0⟩, ⟨23, 0, 0⟩],
    [⟨30, 0, 0⟩, ⟨31, 0, 0⟩, ⟨32, 0, 0⟩, ⟨33, 0, 0⟩]]⟩

/-! ## Properties -/

theorem rd_inb {β : Type} {t : List (List β)} {w h c r : Nat} (ht : Rect t w h)
    (hc : c < w) (hr : r < h) : ∃ v, rd t c r = some v := by
  obtain ⟨hl, hcol⟩ := ht
  have hc' : c < t.length := by omega
  have hlen : (t[c]).length = h := hcol _ (List.getElem_mem _)
  refine ⟨(t[c])[r], ?_⟩
  simp [rd, List.getElem?_eq_getElem hc', List.getElem?_eq_getElem (hlen ▸ hr)]

theorem rd_col_oob {β : Type} {t : List (List β)} {w h c r : Nat} (ht : Rect t w h)
    (hc : w ≤ c) : rd t c r = none := by
  obtain ⟨hl, _⟩ := ht
  have : t[c]? = none := List.getElem?_eq_none (by omega)
  simp [rd, this]

theorem wr_inb {β : Type} {t : List (List β)} {w h c r : Nat} (v : β) (ht : Rect t w h)
    (hc : c < w) (hr : r < h) :
    ∃ t', wr t c r v = some t' ∧ Rect t' w h ∧
      ∀ c' r', rd t' c' r' = if c' = c ∧ r' = r then some v else rd t c' r' := by
  obtain ⟨hl, hcol⟩ := ht
  have hc' : c < t.length := by omega
  have hlen : (t[c]).length = h := hcol _ (List.getElem_mem _)
  refine ⟨t.set c ((t[c]).set r v), ?_, ⟨by simpa using hl, ?_⟩, ?_⟩
  · simp [wr, List.getElem?_eq_getElem hc', hlen, hr]
  · intro col hmem
    rcases List.mem_or_eq_of_mem_set hmem with h1 | h1
    · exact hcol _ h1
    · simp [h1, hlen]
  · intro c' r'
    by_cases h1 : c' = c
    · subst h1
      by_cases h2 : r' = r
      · subst h2
        simp [rd, hc', hlen, hr]
      · simp [rd, hc', h2, List.getElem?_set, Ne.symm h2]
    · simp [rd, h1, List.getElem?_set, Ne.symm h1]

theorem forLoop_inv {σ : Type} (body : Nat → σ → Option σ) (I : Nat → σ → Prop) :
    ∀ (n a : Nat) (s : σ),
      (∀ i s, a ≤ i → i < a + n → I i s → ∃ s', body i s = some s' ∧ I (i + 1) s') →
      I a s → ∃ s', forLoop body n a s = some s' ∧ I (a + n) s' := by
  intro n
  induction n with
  | zero => intro a s _ h0; exact ⟨s, rfl, by simpa using h0⟩
  | succ n ih =>
    intro a s hstep h0
    obtain ⟨s1, hb, h1⟩ := hstep a s (le_refl _) (by omega) h0
    obtain ⟨s2, hl, h2⟩ := ih (a + 1) s1
      (fun i s hi1 hi2 hI => hstep i s (by omega) (by omega) hI) h1
    refine ⟨s2, ?_, by simpa [Nat.add_assoc, Nat.add_comm 1 n] using h2⟩
    simp [forLoop, hb, hl]

theorem downLoop_inv {σ : Type} (body : Nat → σ → Option σ) (I : Nat → σ → Prop) :
    ∀ (n : Nat) (s : σ),
      (∀ i s, 0 < i → i ≤ n → I i s → ∃ s', body i s = some s' ∧ I (i - 1) s') →
      I n s → ∃ s', downLoop body n s = some s' ∧ I 0 s' := by
  intro n
  induction n with
  | zero => intro s _ h0; exact ⟨s, rfl, h0⟩
  | succ n ih =>
    intro s hstep h0
    obtain ⟨s1, hb, h1⟩ := hstep (n + 1) s (by omega) (le_refl _) h0
    obtain ⟨s2, hl, h2⟩ := ih s1 (fun i s hi1 hi2 hI => hstep i s hi1 (by omega) hI)
      (by simpa using h1)
    exact ⟨s2, by simp [downLoop, hb, hl], h2⟩

theorem GetPixel_inb {img : Image} {w h c r : Nat} (hi : Rect img.m_table w h)
    (hc : c < w) (hr : r < h) : GetPixel img c r = some (pixAt img c r) := by
  obtain ⟨v, hv⟩ := rd_inb hi hc hr
  simp [GetPixel, pixAt, hv]

theorem GetImageHeight_rect {img : Image} {w h : Nat} (hi : Rect img.m_table w h)
    (hw : 0 < w) : GetImageHeight img = some h := by
  obtain ⟨hl, hcol⟩ := hi
  have h0 : 0 < img.m_table.length := by omega
  have := hcol _ (List.getElem_mem h0)
  simp [GetImageHeight, List.getElem?_eq_getElem h0, this]

theorem szSub_of_le {a b : Nat} (h : b ≤ a) : szSub a b = a - b := by
  simp [szSub, h]

section EnergyFacts
variable {α : Type} [LinearOrderedField α]

theorem GetPixelEnergy_eq (sq : α → α) {img : Image} {w h c r : Nat}
    (hi : Rect img.m_table w h) (hc : c < w) (hr : r < h) :
    GetPixelEnergy sq img c r = some (sq (
      Delta (pixAt img ((c + w - 1) % w) r) (pixAt img ((c + 1) % w) r) +
      Delta (pixAt img c ((r + h - 1) % h)) (pixAt img c ((r + 1) % h)))) := by
  have hw : GetImageWidth img = w := hi.1
  have hh := GetImageHeight_rect hi (by omega)
  have e1 : (if c = 0 then GetPixel img (szSub w 1) r else GetPixel img (c - 1) r)
      = some (pixAt img ((c + w - 1) % w) r) := by
    split
    · next h0 =>
      subst h0
      rw [szSub_of_le (by omega), GetPixel_inb hi (by omega) hr]
      congr 2
      rw [Nat.zero_add, Nat.mod_eq_of_lt (by omega)]
    · next h0 =>
      rw [GetPixel_inb hi (by omega) hr]
      congr 2
      have : c + w - 1 = (c - 1) + w := by omega
      rw [this, Nat.add_mod_right, Nat.mod_eq_of_lt (by omega)]
  have e2 : (if c = szSub w 1 then GetPixel img 0 r else GetPixel img (c + 1) r)
      = some (pixAt img ((c + 1) % w) r) := by
    rw [szSub_of_le (by omega)]
    split
    · next h0 =>
      rw [GetPixel_inb hi (by omega) hr]
      congr 2
      have : c + 1 = w := by omega
      rw [this, Nat.mod_self]
    · next h0 =>
      rw [GetPixel_inb hi (by omega) hr]
      congr 2
      rw [Nat.mod_eq_of_lt (by omega)]
  have e3 : (if r = 0 then GetPixel img c (szSub h 1) else GetPixel img c (r - 1))
      = some (pixAt img c ((r + h - 1) % h)) := by
    split
    · next h0 =>
      subst h0
      rw [szSub_of_le (by omega), GetPixel_inb hi hc (by omega)]
      congr 2
      rw [Nat.zero_add, Nat.mod_eq_of_lt (by omega)]
    · next h0 =>
      rw [GetPixel_inb hi hc (by omega)]
      congr 2
      have : r + h - 1 = (r - 1) + h := by omega
      rw [this, Nat.add_mod_right, Nat.mod_eq_of_lt (by omega)]
  have e4 : (if r = szSub h 1 then GetPixel img c 0 else GetPixel img c (r + 1))
      = some (pixAt img c ((r + 1) % h)) := by
    rw [szSub_of_le (by omega)]
    split
    · next h0 =>
      rw [GetPixel_inb hi hc (by omega)]
      congr 2
      have : r + 1 = h := by omega
      rw [this, Nat.mod_self]
    · next h0 =>
      rw [GetPixel_inb hi hc (by omega)]
      congr 2
      rw [Nat.mod_eq_of_lt (by omega)]
  simp only [GetPixelEnergy, hw, hh, e1, e2, e3, e4, Option.bind_eq_bind, Option.some_bind]

end EnergyFacts

section Forward

variable {α : Type} [LinearOrderedField α]

theorem GetPixelEnergy_inb (sq : α → α) {img : Image} {w h c r : Nat}
    (hi : Rect img.m_table w h) (hc : c < w) (hr : r < h) :
    GetPixelEnergy sq img c r = some (energyAt sq img c r) := by
  simp [energyAt, GetPixelEnergy_eq sq hi hc hr]

theorem rect_replicate {β : Type} (w h : Nat) (v : β) :
    Rect (List.replicate w (List.replicate h v)) w h := by
  refine ⟨by simp, ?_⟩
  intro col hcol
  rw [List.eq_of_mem_replicate hcol]
  simp

theorem firstRow_loop (sq : α → α) {img : Image} {w h : Nat}
    (hi : Rect img.m_table w h) (hh : 1 ≤ h) (dp : List (List α)) (hdp : Rect dp w h) :
    ∃ dp', forLoop (firstRowStep sq img) w 0 dp = some dp' ∧ Rect dp' w h ∧
      ∀ c, c < w → rd dp' c 0 = some (energyAt sq img c 0) := by
  have := forLoop_inv (firstRowStep sq img)
    (fun i d => Rect d w h ∧ ∀ c, c < i → rd d c 0 = some (energyAt sq img c 0)) w 0 dp
    (by
      intro i d _ hi2 ⟨hd, hprev⟩
      have hiw : i < w := by omega
      obtain ⟨d', hwr, hd', hrd⟩ := wr_inb (energyAt sq img i 0) hd hiw (by omega : 0 < h)
      refine ⟨d', ?_, hd', ?_⟩
      · simp [firstRowStep, GetPixelEnergy_inb sq hi hiw (by omega : 0 < h), hwr]
      · intro c hc
        rw [hrd]
        by_cases hci : c = i
        · simp [hci]
        · simp [hci]
          exact hprev c (by omega))
    ⟨hdp, by intro c hc; omega⟩
  simpa using this

theorem cost_succ_zero (E : Nat → Nat → α) (w r : Nat) :
    cost E w (r + 1) 0 = min (cost E w r 0) (cost E w r 1) + E 0 (r + 1) := by
  simp [cost]

theorem cost_succ_last (E : Nat → Nat → α) {w : Nat} (hw : 2 ≤ w) (r : Nat) :
    cost E w (r + 1) (w - 1) = min (cost E w r (w - 1)) (cost E w r (w - 2)) + E (w - 1) (r + 1) := by
  have : w - 1 ≠ 0 := by omega
  simp [cost, this]

theorem cost_succ_mid (E : Nat → Nat → α) {w c : Nat} (h0 : c ≠ 0) (h1 : c ≠ w - 1) (r : Nat) :
    cost E w (r + 1) c =
      min (cost E w r c) (min (cost E w r (c + 1)) (cost E w r (c - 1))) + E c (r + 1) := by
  simp [cost, h0, h1]

/-- One row of the forward pass: reads row `k`, fills row `k + 1`. -/
theorem rowStep_spec (sq : α → α) {img : Image} {w h : Nat}
    (hi : Rect img.m_table w h) (hw : 2 ≤ w) (k : Nat) (hk : k + 1 < h)
    (dp : List (List α)) (hdp : Rect dp w h)
    (hprev : ∀ r, r < k + 1 → ∀ c, c < w → rd dp c r = some (cost (energyAt sq img) w r c)) :
    ∃ dp', rowStep sq img w (k + 1) dp = some dp' ∧ Rect dp' w h ∧
      ∀ r, r < k + 2 → ∀ c, c < w → rd dp' c r = some (cost (energyAt sq img) w r c) := by
  -- first column
  obtain ⟨d1, hwr1, hd1, hrd1⟩ := wr_inb
    (min (cost (energyAt sq img) w k 0) (cost (energyAt sq img) w k 1)
      + energyAt sq img 0 (k + 1)) hdp (by omega : 0 < w) hk
  -- middle columns
  obtain ⟨d2, hl2, hd2, hrow2, hnew2⟩ := forLoop_inv (innerStep sq img (k + 1))
    (fun j d => Rect d w h ∧
      (∀ r, r < k + 1 → ∀ c, c < w → rd d c r = some (cost (energyAt sq img) w r c)) ∧
      (∀ c, c < j → rd d c (k + 1) = some (cost (energyAt sq img) w (k + 1) c)))
    (w - 1 - 1) 1 d1
    (by
      intro j d hj1 hj2 ⟨hd, hold, hnew⟩
      have hjw : j < w := by omega
      obtain ⟨d', hwr, hd', hrd⟩ := wr_inb
        (min (cost (energyAt sq img) w k j)
          (min (cost (energyAt sq img) w k (j + 1)) (cost (energyAt sq img) w k (j - 1)))
          + energyAt sq img j (k + 1)) hd hjw hk
      refine ⟨d', ?_, hd', ?_, ?_⟩
      · simp [innerStep, hold k (by omega) j hjw, hold k (by omega) (j + 1) (by omega),
          hold k (by omega) (j - 1) (by omega), GetPixelEnergy_inb sq hi hjw hk, hwr]
      · intro r hr c hc
        rw [hrd]
        have : r ≠ k + 1 := by omega
        simp [this]
        exact hold r hr c hc
      · intro c hc
        rw [hrd]
        by_cases hcj : c = j
        · subst hcj
          simp
          rw [cost_succ_mid _ (by omega) (by omega)]
        · simp [hcj]
          exact hnew c (by omega))
    ⟨hd1, by
        intro r hr c hc
        rw [hrd1]
        have : r ≠ k + 1 := by omega
        simp [this]
        exact hprev r hr c hc,
      by
        intro c hc
        have : c = 0 := by omega
        subst this
        rw [hrd1]
        simp [cost_succ_zero]⟩
  have hend : 1 + (w - 1 - 1) = w - 1 := by omega
  rw [hend] at hnew2
  -- last column
  obtain ⟨d3, hwr3, hd3, hrd3⟩ := wr_inb
    (min (cost (energyAt sq img) w k (w - 1)) (cost (energyAt sq img) w k (w - 2))
      + energyAt sq img (w - 1) (k + 1)) hd2 (by omega : w - 1 < w) hk
  refine ⟨d3, ?_, hd3, ?_⟩
  · simp [rowStep, hprev k (by omega) 0 (by omega), hprev k (by omega) 1 (by omega),
      GetPixelEnergy_inb sq hi (by omega : 0 < w) hk, hwr1, szSub_of_le (by omega : 1 ≤ w),
      szSub_of_le hw, hl2, hrow2 k (by omega) (w - 1) (by omega),
      hrow2 k (by omega) (w - 2) (by omega),
      GetPixelEnergy_inb sq hi (by omega : w - 1 < w) hk, hwr3]
  · intro r hr c hc
    rw [hrd3]
    by_cases hlast : c = w - 1 ∧ r = k + 1
    · obtain ⟨h1, h2⟩ := hlast
      subst h1 h2
      simp
      rw [cost_succ_last _ hw]
    · simp only [hlast, if_false]
      by_cases hrk : r = k + 1
      · subst hrk
        exact hnew2 c (by omega)
      · exact hrow2 r (by omega) c hc

/-- The two forward loops of `FindVerticalSeam` succeed and fill the table with
`cost`. -/
theorem forward_pass (sq : α → α) {img : Image} {w h : Nat}
    (hi : Rect img.m_table w h) (hw : 2 ≤ w) (hh : 1 ≤ h) :
    ∃ dp0 dp, forLoop (firstRowStep sq img) w 0
          (List.replicate w (List.replicate h (0 : α))) = some dp0 ∧
      forLoop (rowStep sq img w) (h - 1) 1 dp0 = some dp ∧ Rect dp w h ∧
      ∀ r, r < h → ∀ c, c < w → rd dp c r = some (cost (energyAt sq img) w r c) := by
  obtain ⟨dp0, h0, hd0, hrow0⟩ := firstRow_loop sq hi hh _ (rect_replicate w h (0 : α))
  obtain ⟨dp, hl, hd, hall⟩ := forLoop_inv (rowStep sq img w)
    (fun i d => Rect d w h ∧
      ∀ r, r < i → ∀ c, c < w → rd d c r = some (cost (energyAt sq img) w r c))
    (h - 1) 1 dp0
    (by
      intro i d hi1 hi2 ⟨hd, hprev⟩
      obtain ⟨k, rfl⟩ : ∃ k, i = k + 1 := ⟨i - 1, by omega⟩
      exact rowStep_spec sq hi hw k (by omega) d hd hprev)
    ⟨hd0, by
      intro r hr c hc
      have : r = 0 := by omega
      subst this
      simpa [cost] using hrow0 c hc⟩
  have hend : 1 + (h - 1) = h := by omega
  rw [hend] at hall
  exact ⟨dp0, dp, h0, hl, hd, hall⟩

end Forward

section Backward

variable {α : Type} [LinearOrderedField α]

theorem BuildSeam_loop_eq (st seam : List Nat) : BuildSeam.loop st seam = seam ++ st := by
  induction st generalizing seam with
  | nil => simp [BuildSeam.loop]
  | cons a st ih => simp [BuildSeam.loop, ih]

theorem BuildSeam_eq (st : List Nat) : BuildSeam st = st := by
  simp [BuildSeam, BuildSeam_loop_eq]

/-- The anchor scan: it succeeds when the first cost does not exceed the initial
`value`, and leaves in `start` the last column of minimal cost. -/
theorem anchor_scan {w h : Nat} (dp : List (List α)) (d : Nat → α) (S : α) (hw : 1 ≤ w)
    (hrd : ∀ c, c < w → rd dp c (szSub h 1) = some (d c)) (h0 : d 0 ≤ S) :
    ∃ v a, forLoop (anchorStep h dp) w 0 (S, none) = some (v, some a) ∧ a < w ∧ d a = v ∧
      (∀ c, c < w → v ≤ d c) ∧ (∀ c, a < c → c < w → v < d c) := by
  obtain ⟨s', hl, hI⟩ := forLoop_inv (anchorStep h dp)
    (fun i (s : α × Option Nat) => (i = 0 ∧ s = (S, none)) ∨
      (1 ≤ i ∧ ∃ a, s.2 = some a ∧ a < i ∧ d a = s.1 ∧ (∀ c, c < i → s.1 ≤ d c) ∧
        (∀ c, a < c → c < i → s.1 < d c)))
    w 0 (S, none)
    (by
      intro i s _ hi2 hI
      have hiw : i < w := by omega
      rcases hI with ⟨hi0, hs⟩ | ⟨hi1, a, hsa, hai, hda, hle, hlt⟩
      · subst hi0 hs
        refine ⟨(d 0, some 0), ?_, Or.inr ⟨by omega, 0, rfl, by omega, rfl, ?_, ?_⟩⟩
        · simp [anchorStep, hrd 0 hiw, h0]
        · intro c hc
          have : c = 0 := by omega
          subst this
          exact le_refl _
        · intro c hc1 hc2
          omega
      · obtain ⟨v, st⟩ := s
        simp only at hsa hda hle hlt
        subst hsa
        by_cases hcmp : d i ≤ v
        · refine ⟨(d i, some i), ?_, Or.inr ⟨by omega, i, rfl, by omega, rfl, ?_, ?_⟩⟩
          · simp [anchorStep, hrd i hiw, hcmp]
          · intro c hc
            by_cases hci : c = i
            · subst hci; exact le_refl _
            · exact le_trans hcmp (hle c (by omega))
          · intro c hc1 hc2
            omega
        · have hlt' : v < d i := lt_of_not_le hcmp
          refine ⟨(v, some a), ?_, Or.inr ⟨by omega, a, rfl, by omega, hda, ?_, ?_⟩⟩
          · have hne : ¬ (v = d i) := ne_of_lt hlt'
            simp [anchorStep, hrd i hiw, le_of_lt hlt', hne]
          · intro c hc
            by_cases hci : c = i
            · subst hci; exact le_of_lt hlt'
            · exact hle c (by omega)
          · intro c hc1 hc2
            by_cases hci : c = i
            · subst hci; exact hlt'
            · exact hlt c hc1 (by omega))
    (Or.inl ⟨rfl, rfl⟩)
  rcases hI with ⟨hw0, _⟩ | ⟨_, a, hsa, hai, hda, hle, hlt⟩
  · omega
  · obtain ⟨v, st⟩ := s'
    simp only at hsa hda hle hlt
    subst hsa
    exact ⟨v, a, hl, by omega, hda, by simpa using hle, by simpa using hlt⟩

theorem predCol_lt (E : Nat → Nat → α) {w k c : Nat} (hc : c < w) :
    predCol E w k c < w := by
  unfold predCol
  split
  · omega
  · split
    · next h => have := h.1; omega
    · exact hc

theorem predCol_adj (E : Nat → Nat → α) (w k c : Nat) : Adj (predCol E w k c) c := by
  unfold predCol Adj
  split
  · omega
  · split <;> omega

/-- In exact arithmetic the column chosen by the backtrace is a predecessor that
realises the minimum of the recurrence. -/
theorem predCol_cost (E : Nat → Nat → α) {w k c : Nat} (hw : 2 ≤ w) (hc : c < w) :
    cost E w k (predCol E w k c) + E c (k + 1) = cost E w (k + 1) c := by
  unfold predCol
  split
  · next h => rw [← h.2]; ring
  · next hl =>
    split
    · next h => rw [← h.2.1]; ring
    · next hr =>
      by_cases h0 : c = 0
      · subst h0
        rw [cost_succ_zero] at hr ⊢
        have h1 : (0 : Nat) ≠ w - 1 := by omega
        simp only [ne_eq, h1, not_false_eq_true, true_and, add_sub_cancel_right, Nat.zero_add,
          not_and, not_not] at hr
        rcases min_choice (cost E w k 0) (cost E w k 1) with hm | hm
        · rw [hm]
        · rw [hr hm]
      · by_cases h1 : c = w - 1
        · subst h1
          rw [cost_succ_last E hw] at hl ⊢
          simp only [ne_eq, h0, not_false_eq_true, true_and, add_sub_cancel_right] at hl
          have e : w - 1 - 1 = w - 2 := by omega
          rw [e] at hl
          rcases min_choice (cost E w k (w - 1)) (cost E w k (w - 2)) with hm | hm
          · rw [hm]
          · exact absurd hm hl
        · rw [cost_succ_mid E h0 h1] at hl hr ⊢
          simp only [ne_eq, h0, h1, not_false_eq_true, true_and, add_sub_cancel_right,
            not_and, not_not] at hl hr
          rcases min_choice (cost E w k c) (min (cost E w k (c + 1)) (cost E w k (c - 1)))
            with hm | hm
          · rw [hm]
          · rcases min_choice (cost E w k (c + 1)) (cost E w k (c - 1)) with hm2 | hm2
            · rw [hr (hm.trans hm2)]
            · exact absurd (hm.trans hm2) hl

theorem leftTest_eq (dp : List (List α)) (start k : Nat) (cur L : α)
    (h : start ≠ 0 → rd dp (start - 1) k = some L) :
    leftTest dp start (k + 1) cur = some (decide (start ≠ 0 ∧ cur = L)) := by
  unfold leftTest
  by_cases h0 : start = 0
  · simp [h0]
  · simp [h0, h h0]

theorem rightTest_eq (w : Nat) (dp : List (List α)) (start k : Nat) (cur R M : α)
    (hR : start ≠ szSub w 1 → rd dp (start + 1) k = some R)
    (hM : rd dp start k = some M) :
    rightTest w dp start (k + 1) cur =
      some (decide (start ≠ szSub w 1 ∧ cur = R ∧ cur ≠ M)) := by
  unfold rightTest
  by_cases h0 : start = szSub w 1
  · simp [h0]
  · by_cases h1 : cur = R
    · simp [h0, hR h0, h1, hM]
    · simp [h0, hR h0, h1]

/-- One step of the backtrace loop on a table filled with `cost`. -/
theorem traceStep_spec (sq : α → α) {img : Image} {w h : Nat}
    (hi : Rect img.m_table w h) (hw : 2 ≤ w) (dp : List (List α))
    (hdp : ∀ r, r < h → ∀ c, c < w → rd dp c r = some (cost (energyAt sq img) w r c))
    (k : Nat) (hk : k + 1 < h) (start : Nat) (hs : start < w) (st : List Nat) :
    traceStep sq img w dp (k + 1) (start, st) =
      some (predCol (energyAt sq img) w k start, start :: st) := by
  have hcur := hdp (k + 1) hk start hs
  have hen := GetPixelEnergy_inb sq hi hs hk
  have hw1 : szSub w 1 = w - 1 := szSub_of_le (by omega)
  have hL := leftTest_eq dp start k
    (cost (energyAt sq img) w (k + 1) start - energyAt sq img start (k + 1))
    (cost (energyAt sq img) w k (start - 1))
    (fun h0 => hdp k (by omega) (start - 1) (by omega))
  have hR := rightTest_eq w dp start k
    (cost (energyAt sq img) w (k + 1) start - energyAt sq img start (k + 1))
    (cost (energyAt sq img) w k (start + 1)) (cost (energyAt sq img) w k start)
    (fun h0 => hdp k (by omega) (start + 1) (by rw [hw1] at h0; omega))
    (hdp k (by omega) start hs)
  rw [hw1] at hR
  simp only [traceStep, hcur, hen, hL, hR, Option.bind_eq_bind, Option.some_bind, predCol]
  split_ifs <;> simp_all

end Backward

section SeamFacts

variable {α : Type} [LinearOrderedField α]

theorem isSeam_iff_chain (w : Nat) (s : List Nat) :
    IsSeam w s.length s ↔ (∀ x ∈ s, x < w) ∧ List.Chain' Adj s := by
  induction s with
  | nil => simp [IsSeam]
  | cons a s ih =>
    constructor
    · rintro ⟨_, hb, hadj⟩
      have hs : IsSeam w s.length s := by
        refine ⟨rfl, ?_, ?_⟩
        · intro r hr
          simpa using hb (r + 1) (by simpa using hr)
        · intro r hr
          simpa using hadj (r + 1) (by simpa using hr)
      obtain ⟨hmem, hch⟩ := ih.1 hs
      refine ⟨?_, ?_⟩
      · intro x hx
        rcases List.mem_cons.1 hx with rfl | hx
        · simpa using hb 0 (by simp)
        · exact hmem x hx
      · cases s with
        | nil => exact List.chain'_singleton a
        | cons b s =>
          refine List.chain'_cons.2 ⟨?_, hch⟩
          have := hadj 0 (by simp)
          simp at this
          exact ⟨this.2, this.1⟩
    · rintro ⟨hmem, hch⟩
      have hs := ih.2 ⟨fun x hx => hmem x (List.mem_cons_of_mem _ hx), hch.tail⟩
      obtain ⟨_, hb, hadj⟩ := hs
      refine ⟨rfl, ?_, ?_⟩
      · intro r hr
        cases r with
        | zero => simpa using hmem a (List.mem_cons_self _ _)
        | succ r => simpa using hb r (by simpa using hr)
      · intro r hr
        cases r with
        | zero =>
          cases s with
          | nil => simp at hr
          | cons b s =>
            have := (List.chain'_cons.1 hch).1
            simp
            exact ⟨this.2, this.1⟩
        | succ r => simpa using hadj r (by simpa using hr)

theorem traceBack_length (E : Nat → Nat → α) (w : Nat) :
    ∀ (n start : Nat) (st : List Nat), (traceBack E w n start st).length = n + 1 + st.length := by
  intro n
  induction n with
  | zero => intro start st; simp [traceBack]; omega
  | succ n ih => intro start st; simp [traceBack, ih]; omega

theorem traceBack_lt (E : Nat → Nat → α) (w : Nat) :
    ∀ (n start : Nat) (st : List Nat), start < w → (∀ x ∈ st, x < w) →
      ∀ x ∈ traceBack E w n start st, x < w := by
  intro n
  induction n with
  | zero =>
    intro start st hs hst x hx
    rcases List.mem_cons.1 hx with rfl | hx
    · exact hs
    · exact hst x hx
  | succ n ih =>
    intro start st hs hst
    refine ih _ _ (predCol_lt E hs) ?_
    intro x hx
    rcases List.mem_cons.1 hx with rfl | hx
    · exact hs
    · exact hst x hx

theorem traceBack_chain (E : Nat → Nat → α) (w : Nat) :
    ∀ (n start : Nat) (st : List Nat), List.Chain' Adj (start :: st) →
      List.Chain' Adj (traceBack E w n start st) := by
  intro n
  induction n with
  | zero => intro start st h; exact h
  | succ n ih =>
    intro start st h
    exact ih _ _ (List.chain'_cons.2 ⟨predCol_adj E w n start, h⟩)

theorem traceBack_energy (E : Nat → Nat → α) {w : Nat} (hw : 2 ≤ w) :
    ∀ (n start : Nat) (st : List Nat), start < w →
      pathEnergy E 0 (traceBack E w n start st) = cost E w n start + pathEnergy E (n + 1) st := by
  intro n
  induction n with
  | zero => intro start st _; simp [traceBack, pathEnergy, cost]
  | succ n ih =>
    intro start st hs
    rw [traceBack, ih _ _ (predCol_lt E hs), pathEnergy, ← predCol_cost E hw hs]
    ring

/-- The backtrace loop on a table filled with `cost` computes `traceBack`. -/
theorem downLoop_trace (sq : α → α) {img : Image} {w h : Nat}
    (hi : Rect img.m_table w h) (hw : 2 ≤ w) (dp : List (List α))
    (hdp : ∀ r, r < h → ∀ c, c < w → rd dp c r = some (cost (energyAt sq img) w r c)) :
    ∀ (n : Nat), n < h → ∀ (start : Nat) (st : List Nat), start < w →
      ∃ s', downLoop (traceStep sq img w dp) n (start, st) = some s' ∧
        s'.1 :: s'.2 = traceBack (energyAt sq img) w n start st := by
  intro n
  induction n with
  | zero => intro _ start st _; exact ⟨(start, st), rfl, rfl⟩
  | succ n ih =>
    intro hn start st hs
    obtain ⟨s', h1, h2⟩ := ih (by omega) (predCol (energyAt sq img) w n start) (start :: st)
      (predCol_lt _ hs)
    refine ⟨s', ?_, by simpa [traceBack] using h2⟩
    simp [downLoop, traceStep_spec sq hi hw dp hdp n hn start hs st, h1]

/-- What `FindVerticalSeam` returns on a rectangular grid of width at least two whose
first final cost does not exceed the initial `value` of the anchor scan: the
backtrace from the last column of minimal final cost. -/
theorem FindVerticalSeam_eq (sq : α → α) {img : Image} {w h : Nat}
    (hi : Rect img.m_table w h) (hw : 2 ≤ w) (hh : 1 ≤ h)
    (hS : cost (energyAt sq img) w (h - 1) 0 ≤ INT64_MAX) :
    ∃ a, a < w ∧
      (∀ c, c < w → cost (energyAt sq img) w (h - 1) a ≤ cost (energyAt sq img) w (h - 1) c) ∧
      (∀ c, a < c → c < w →
        cost (energyAt sq img) w (h - 1) a < cost (energyAt sq img) w (h - 1) c) ∧
      FindVerticalSeam sq img = some (traceBack (energyAt sq img) w (h - 1) a []) := by
  obtain ⟨dp0, dp, h0, hl, hd, hall⟩ := forward_pass sq hi hw hh
  have hh1 : szSub h 1 = h - 1 := szSub_of_le hh
  obtain ⟨v, a, hscan, haw, hda, hle, hlt⟩ := anchor_scan (h := h) dp
    (fun c => cost (energyAt sq img) w (h - 1) c) INT64_MAX (by omega : 1 ≤ w)
    (by intro c hc; rw [hh1]; exact hall (h - 1) (by omega) c hc) hS
  obtain ⟨s', htr, hs'⟩ := downLoop_trace sq hi hw dp hall (h - 1) (by omega) a [] haw
  refine ⟨a, haw, ?_, ?_, ?_⟩
  · intro c hc; rw [hda]; exact hle c hc
  · intro c h1 h2; rw [hda]; exact hlt c h1 h2
  · have hw' : GetImageWidth img = w := hi.1
    simp [FindVerticalSeam, GetImageHeight_rect hi (by omega : 0 < w), hw', h0, hl, hscan,
      hh1, htr, BuildSeam_eq, hs']

end SeamFacts

section Optimality

variable {α : Type} [LinearOrderedField α]

theorem pathEnergy_append (E : Nat → Nat → α) (l : List Nat) (c r : Nat) :
    pathEnergy E r (l ++ [c]) = pathEnergy E r l + E c (r + l.length) := by
  induction l generalizing r with
  | nil => simp [pathEnergy]
  | cons a l ih =>
    have e : r + 1 + l.length = r + (l.length + 1) := by omega
    show E a r + pathEnergy E (r + 1) (l ++ [c]) = _
    rw [ih, e]
    simp only [pathEnergy, List.length_cons]
    ring

theorem pathEnergy_eq_revEnergy (E : Nat → Nat → α) (l : List Nat) :
    pathEnergy E 0 l = revEnergy E l.reverse := by
  induction l using List.reverseRecOn with
  | nil => simp [pathEnergy, revEnergy]
  | append_singleton l c ih =>
    rw [pathEnergy_append, List.reverse_append, ih]
    simp [revEnergy]
    ring

/-- The recurrence takes the minimum over the in-range neighbours of the row
above. -/
theorem cost_succ_le (E : Nat → Nat → α) {w b c : Nat} (hw : 2 ≤ w) (hb : b < w) (hc : c < w)
    (hadj : Adj c b) (k : Nat) : cost E w (k + 1) c ≤ cost E w k b + E c (k + 1) := by
  obtain ⟨h1, h2⟩ := hadj
  by_cases h0 : c = 0
  · subst h0
    rw [cost_succ_zero]
    have : b = 0 ∨ b = 1 := by omega
    rcases this with rfl | rfl
    · exact add_le_add_right (min_le_left _ _) _
    · exact add_le_add_right (min_le_right _ _) _
  · by_cases hl : c = w - 1
    · subst hl
      rw [cost_succ_last E hw]
      have : b = w - 1 ∨ b = w - 2 := by omega
      rcases this with rfl | rfl
      · exact add_le_add_right (min_le_left _ _) _
      · exact add_le_add_right (min_le_right _ _) _
    · rw [cost_succ_mid E h0 hl]
      have : b = c ∨ b = c + 1 ∨ b = c - 1 := by omega
      rcases this with rfl | rfl | rfl
      · exact add_le_add_right (min_le_left _ _) _
      · exact add_le_add_right (le_trans (min_le_right _ _) (min_le_left _ _)) _
      · exact add_le_add_right (le_trans (min_le_right _ _) (min_le_right _ _)) _

/-- Every connected path that ends in column `c` costs at least `cost` there. -/
theorem cost_le_revEnergy (E : Nat → Nat → α) {w : Nat} (hw : 2 ≤ w) :
    ∀ (q : List Nat) (c : Nat), (∀ x ∈ c :: q, x < w) → List.Chain' Adj (c :: q) →
      cost E w q.length c ≤ revEnergy E (c :: q) := by
  intro q
  induction q with
  | nil => intro c _ _; simp [cost, revEnergy]
  | cons b q ih =>
    intro c hmem hch
    have hb : b < w := hmem b (by simp)
    have hc : c < w := hmem c (by simp)
    have hrec := ih b (fun x hx => hmem x (List.mem_cons_of_mem _ hx)) hch.tail
    have hadj : Adj c b := (List.chain'_cons.1 hch).1
    calc cost E w (b :: q).length c
        ≤ cost E w q.length b + E c (q.length + 1) := cost_succ_le E hw hb hc hadj _
      _ ≤ revEnergy E (b :: q) + E c (q.length + 1) := add_le_add_right hrec _
      _ = revEnergy E (c :: b :: q) := by simp [revEnergy]; ring

theorem adj_symm {a b : Nat} (h : Adj a b) : Adj b a := ⟨h.2, h.1⟩

/-- Every connected seam costs at least the least final cost. -/
theorem cost_le_pathEnergy (E : Nat → Nat → α) {w h : Nat} (hw : 2 ≤ w) (hh : 1 ≤ h)
    (t : List Nat) (ht : IsSeam w h t) :
    ∃ c, c < w ∧ cost E w (h - 1) c ≤ pathEnergy E 0 t := by
  have hlen : t.length = h := ht.1
  subst hlen
  obtain ⟨hmem, hch⟩ := (isSeam_iff_chain w t).1 ht
  rw [pathEnergy_eq_revEnergy]
  have hrev : List.Chain' Adj t.reverse := by
    rw [List.chain'_reverse]
    exact hch.imp (fun {a b} (h : Adj a b) => (⟨h.2, h.1⟩ : flip Adj a b))
  cases hq : t.reverse with
  | nil =>
    have : t.length = 0 := by
      rw [← List.length_reverse, hq]; rfl
    omega
  | cons c q =>
    have hmem' : ∀ x ∈ c :: q, x < w := by
      intro x hx
      rw [← hq] at hx
      exact hmem x (List.mem_reverse.1 hx)
    have hl : q.length = t.length - 1 := by
      have : t.reverse.length = (c :: q).length := by rw [hq]
      simp at this
      omega
    refine ⟨c, hmem' c (by simp), ?_⟩
    rw [← hl]
    exact cost_le_revEnergy E hw q c hmem' (hq ▸ hrev)

theorem seamEnergyFrom_eq (sq : α → α) {img : Image} {w h : Nat}
    (hi : Rect img.m_table w h) :
    ∀ (s : List Nat) (r : Nat), (∀ x ∈ s, x < w) → r + s.length ≤ h →
      seamEnergyFrom sq img r s = some (pathEnergy (energyAt sq img) r s) := by
  intro s
  induction s with
  | nil => intro r _ _; rfl
  | cons c s ih =>
    intro r hmem hlen
    simp only [List.length_cons] at hlen
    have h1 := GetPixelEnergy_inb sq hi (hmem c (by simp)) (by omega : r < h)
    have h2 := ih (r + 1) (fun x hx => hmem x (List.mem_cons_of_mem _ hx)) (by omega)
    simp [seamEnergyFrom, h1, h2, pathEnergy]

theorem seamEnergy_eq (sq : α → α) {img : Image} {w h : Nat}
    (hi : Rect img.m_table w h) (s : List Nat) (hs : IsSeam w h s) :
    seamEnergy sq img s = some (pathEnergy (energyAt sq img) 0 s) := by
  have hlen : s.length = h := hs.1
  subst hlen
  exact seamEnergyFrom_eq sq hi s 0 ((isSeam_iff_chain w s).1 hs).1 (by omega)

/-- The backtrace from a column of row `h - 1` is a connected seam. -/
theorem traceBack_isSeam (E : Nat → Nat → α) {w h a : Nat} (hh : 1 ≤ h) (ha : a < w) :
    IsSeam w h (traceBack E w (h - 1) a []) := by
  have hlen : (traceBack E w (h - 1) a []).length = h := by
    rw [traceBack_length]; simp; omega
  have := (isSeam_iff_chain w (traceBack E w (h - 1) a [])).2
    ⟨traceBack_lt E w _ _ _ ha (by simp), traceBack_chain E w _ _ _ (List.chain'_singleton a)⟩
  rwa [hlen] at this

end Optimality

section RealEnergy

theorem Delta_eq_channelSqSum {α : Type} [LinearOrderedField α] (p q : Pixel) :
    (Delta p q : α) = ((channelSqSum p q : Int) : α) := by
  simp only [Delta, channelSqSum]
  congr 1
  ring

theorem channel_sq_le (x y : Fin 256) : ((x.val : Int) - (y.val : Int)) ^ 2 ≤ 65025 := by
  have hx : (x.val : Int) < 256 := by exact_mod_cast x.isLt
  have hy : (y.val : Int) < 256 := by exact_mod_cast y.isLt
  have hx0 : (0 : Int) ≤ x.val := Int.natCast_nonneg _
  have hy0 : (0 : Int) ≤ y.val := Int.natCast_nonneg _
  nlinarith

theorem channelSqSum_le (p q : Pixel) : channelSqSum p q ≤ 195075 := by
  have h1 := channel_sq_le p.m_red q.m_red
  have h2 := channel_sq_le p.m_green q.m_green
  have h3 := channel_sq_le p.m_blue q.m_blue
  unfold channelSqSum
  omega

theorem channelSqSum_nonneg (p q : Pixel) : 0 ≤ channelSqSum p q := by
  unfold channelSqSum
  positivity

theorem channelSqSum_eq_zero {p q : Pixel} (h : channelSqSum p q = 0) : p = q := by
  unfold channelSqSum at h
  have h1 := sq_nonneg ((p.m_red.val : Int) - (q.m_red.val : Int))
  have h2 := sq_nonneg ((p.m_green.val : Int) - (q.m_green.val : Int))
  have h3 := sq_nonneg ((p.m_blue.val : Int) - (q.m_blue.val : Int))
  have e1 : ((p.m_red.val : Int) - (q.m_red.val : Int)) ^ 2 = 0 := by omega
  have e2 : ((p.m_green.val : Int) - (q.m_green.val : Int)) ^ 2 = 0 := by omega
  have e3 : ((p.m_blue.val : Int) - (q.m_blue.val : Int)) ^ 2 = 0 := by omega
  have r1 : p.m_red = q.m_red := by
    apply Fin.ext
    have := pow_eq_zero_iff (two_ne_zero) |>.1 e1
    omega
  have r2 : p.m_green = q.m_green := by
    apply Fin.ext
    have := pow_eq_zero_iff (two_ne_zero) |>.1 e2
    omega
  have r3 : p.m_blue = q.m_blue := by
    apply Fin.ext
    have := pow_eq_zero_iff (two_ne_zero) |>.1 e3
    omega
  cases p; cases q
  simp_all

/-- Over the reals every energy is at most `625`. -/
theorem energyAt_le {img : Image} {w h c r : Nat} (hi : Rect img.m_table w h)
    (hc : c < w) (hr : r < h) : energyAt Real.sqrt img c r ≤ 625 := by
  have h1 := GetPixelEnergy_eq Real.sqrt hi hc hr
  simp only [energyAt, h1, Option.getD_some]
  rw [Real.sqrt_le_iff]
  refine ⟨by norm_num, ?_⟩
  rw [Delta_eq_channelSqSum, Delta_eq_channelSqSum]
  have a1 : ((channelSqSum (pixAt img ((c + w - 1) % w) r) (pixAt img ((c + 1) % w) r) : Int)
      : ℝ) ≤ 195075 := by exact_mod_cast channelSqSum_le _ _
  have a2 : ((channelSqSum (pixAt img c ((r + h - 1) % h)) (pixAt img c ((r + 1) % h)) : Int)
      : ℝ) ≤ 195075 := by exact_mod_cast channelSqSum_le _ _
  linarith

/-- Over the reals the cumulative cost of row `r` is at most `625 * (r + 1)`. -/
theorem cost_le {img : Image} {w h : Nat} (hi : Rect img.m_table w h) (hw : 2 ≤ w) :
    ∀ (r c : Nat), r < h → c < w →
      cost (energyAt Real.sqrt img) w r c ≤ 625 * ((r : ℝ) + 1) := by
  intro r
  induction r with
  | zero =>
    intro c hr hc
    simpa [cost] using energyAt_le hi hc hr
  | succ r ih =>
    intro c hr hc
    have he := energyAt_le hi hc hr
    have hprev : cost (energyAt Real.sqrt img) w r c ≤ 625 * ((r : ℝ) + 1) :=
      ih c (by omega) hc
    have hstep : cost (energyAt Real.sqrt img) w (r + 1) c
        ≤ cost (energyAt Real.sqrt img) w r c + energyAt Real.sqrt img c (r + 1) :=
      cost_succ_le _ hw hc hc ⟨by omega, by omega⟩ r
    push_cast
    linarith

/-- For a grid of at most `2 ^ 53` rows every final cost is below
`(double)INT64_MAX`, the initial `value` of the anchor scan. -/
theorem cost_le_sentinel {img : Image} {w h : Nat} (hi : Rect img.m_table w h) (hw : 2 ≤ w)
    (hh : 1 ≤ h) (hsize : h ≤ 2 ^ 53) (c : Nat) (hc : c < w) :
    cost (energyAt Real.sqrt img) w (h - 1) c ≤ (INT64_MAX : ℝ) := by
  have h1 := cost_le hi hw (h - 1) c (by omega) hc
  have h2 : ((h - 1 : Nat) : ℝ) + 1 = (h : ℝ) := by
    have : h - 1 + 1 = h := by omega
    exact_mod_cast this
  rw [h2] at h1
  have h3 : (h : ℝ) ≤ 9007199254740992 := by
    have : h ≤ 9007199254740992 := by
      have e : (2 : Nat) ^ 53 = 9007199254740992 := by norm_num
      omega
    exact_mod_cast this
  have h4 : (INT64_MAX : ℝ) = 9223372036854775807 := by
    unfold INT64_MAX
    norm_num
  rw [h4]
  linarith

end RealEnergy

/-- Over the reals, on a rectangular grid of width at least 2 and of 1 to `2 ^ 53`
rows, `FindVerticalSeam` returns a connected seam. -/
theorem FindVerticalSeam_isSeam {img : Image} {w h : Nat}
    (hrect : Rect img.m_table w h) (hw : 2 ≤ w) (hh : 1 ≤ h) (hsize : h ≤ 2 ^ 53) :
    ∃ s, FindVerticalSeam Real.sqrt img = some s ∧ IsSeam w h s := by
  obtain ⟨a, haw, _, _, hfind⟩ := FindVerticalSeam_eq Real.sqrt hrect hw hh
    (cost_le_sentinel hrect hw hh hsize 0 (by omega))
  exact ⟨_, hfind, traceBack_isSeam (energyAt Real.sqrt img) (w := w) hh haw⟩

/-! ## Main theorems -/

/-- C1: on a rectangular grid of width at least 2 and height at least 1 (at most
`2 ^ 53` rows, so that every cumulative cost stays below the `INT64_MAX` start value
of the anchor scan), with exact real arithmetic, `FindVerticalSeam` returns a
connected vertical seam `s` (length `height`, entries in `[0, width)`, adjacent
entries differing by at most 1) whose total energy is at most the total energy of
every connected vertical seam `t`: it has minimum total energy among them. -/
theorem FindVerticalSeam_minimum_energy (img : Image) (w h : Nat)
    (hrect : Rect img.m_table w h) (hw : 2 ≤ w) (hh : 1 ≤ h) (hsize : h ≤ 2 ^ 53) :
    ∃ s es, FindVerticalSeam Real.sqrt img = some s ∧ IsSeam w h s ∧
      seamEnergy Real.sqrt img s = some es ∧
      ∀ t, IsSeam w h t → ∃ et, seamEnergy Real.sqrt img t = some et ∧ es ≤ et := by
  obtain ⟨a, haw, hmin, _, hfind⟩ := FindVerticalSeam_eq Real.sqrt hrect hw hh
    (cost_le_sentinel hrect hw hh hsize 0 (by omega))
  have hseam := traceBack_isSeam (energyAt Real.sqrt img) (w := w) hh haw
  refine ⟨_, _, hfind, hseam, seamEnergy_eq Real.sqrt hrect _ hseam, ?_⟩
  intro t ht
  refine ⟨_, seamEnergy_eq Real.sqrt hrect t ht, ?_⟩
  obtain ⟨c, hc, hle⟩ := cost_le_pathEnergy (energyAt Real.sqrt img) hw hh t ht
  rw [traceBack_energy _ hw _ _ _ haw]
  simp only [pathEnergy, add_zero]
  exact le_trans (hmin c hc) hle

/-- The minimum-energy theorem at the 3 x 3 grid with a black middle column. -/
theorem FindVerticalSeam_minimum_energy_witness :
    Rect (stripes 3).m_table 3 3 ∧
    ∃ s es, FindVerticalSeam Real.sqrt (stripes 3) = some s ∧ IsSeam 3 3 s ∧
      seamEnergy Real.sqrt (stripes 3) s = some es ∧
      ∀ t, IsSeam 3 3 t → ∃ et, seamEnergy Real.sqrt (stripes 3) t = some et ∧ es ≤ et :=
  ⟨⟨rfl, by decide⟩,
    FindVerticalSeam_minimum_energy (stripes 3) 3 3 ⟨rfl, by decide⟩ (by decide) (by decide)
      (by norm_num)⟩

/-- C2: on a rectangular grid of width at least 2 and height at least 1 (at most
`2 ^ 53` rows) `FindVerticalSeam` performs no out-of-range access and returns a
sequence of length `height`, with every entry in `[0, width)` and adjacent entries
differing by at most 1. -/
theorem FindVerticalSeam_shape (img : Image) (w h : Nat)
    (hrect : Rect img.m_table w h) (hw : 2 ≤ w) (hh : 1 ≤ h) (hsize : h ≤ 2 ^ 53) :
    ∃ s, FindVerticalSeam Real.sqrt img = some s ∧ s.length = h ∧
      (∀ r, r < h → s.getD r 0 < w) ∧
      ∀ r, r + 1 < h →
        s.getD (r + 1) 0 ≤ s.getD r 0 + 1 ∧ s.getD r 0 ≤ s.getD (r + 1) 0 + 1 := by
  exact FindVerticalSeam_isSeam hrect hw hh hsize

/-- The shape theorem at the 3 x 3 grid with a black middle column. -/
theorem FindVerticalSeam_shape_witness :
    Rect (stripes 3).m_table 3 3 ∧
    ∃ s, FindVerticalSeam Real.sqrt (stripes 3) = some s ∧ s.length = 3 ∧
      (∀ r, r < 3 → s.getD r 0 < 3) ∧
      ∀ r, r + 1 < 3 →
        s.getD (r + 1) 0 ≤ s.getD r 0 + 1 ∧ s.getD r 0 ≤ s.getD (r + 1) 0 + 1 :=
  ⟨⟨rfl, by decide⟩,
    FindVerticalSeam_shape (stripes 3) 3 3 ⟨rfl, by decide⟩ (by decide) (by decide)
      (by norm_num)⟩

section Removal

theorem rd_dropLast {β : Type} (t : List (List β)) (c r : Nat) (hc : c + 1 < t.length) :
    rd t.dropLast c r = rd t c r := by
  have h1 : t.dropLast[c]? = t[c]? := by
    rw [List.dropLast_eq_take, List.getElem?_take]
    simp
    omega
  simp [rd, h1]

theorem rect_dropLast {β : Type} {t : List (List β)} {w h : Nat} (ht : Rect t w h) :
    Rect t.dropLast (w - 1) h := by
  obtain ⟨hl, hcol⟩ := ht
  refine ⟨by simp [hl], ?_⟩
  intro col hmem
  exact hcol col (List.mem_of_mem_dropLast hmem)

theorem getElem?_eq_getD {l : List Nat} {i : Nat} (h : i < l.length) :
    l[i]? = some (l.getD i 0) := by
  simp [List.getD, List.getElem?_eq_getElem h]

/-- The inner loop of `RemoveSeam` in the vertical case: in row `i` the pixels of the
columns `s .. w - 2` are replaced by their right neighbours. -/
theorem shift_vertical {t : List (List Pixel)} {w h : Nat} (ht : Rect t w h) (i s : Nat)
    (hi : i < h) (hs : s < w) :
    ∃ img', forLoop (shiftStep false i) (w - 1 - s) s ⟨t⟩ = some img' ∧
      Rect img'.m_table w h ∧
      ∀ c r, rd img'.m_table c r =
        if r = i ∧ s ≤ c ∧ c < w - 1 then rd t (c + 1) i else rd t c r := by
  obtain ⟨img', hl, hr, hrd⟩ := forLoop_inv (shiftStep false i)
    (fun j (g : Image) => Rect g.m_table w h ∧
      ∀ c r, rd g.m_table c r = if r = i ∧ s ≤ c ∧ c < j then rd t (c + 1) i else rd t c r)
    (w - 1 - s) s ⟨t⟩
    (by
      intro j g hj1 hj2 ⟨hg, hrd⟩
      obtain ⟨v, hv⟩ := rd_inb ht (by omega : j + 1 < w) hi
      obtain ⟨t', hwr, ht', hrd'⟩ := wr_inb v hg (by omega : j < w) hi
      have hread : rd g.m_table (j + 1) i = some v := by
        rw [hrd]
        have : ¬ (i = i ∧ s ≤ j + 1 ∧ j + 1 < j) := by omega
        rw [if_neg this, hv]
      refine ⟨⟨t'⟩, ?_, ht', ?_⟩
      · simp [shiftStep, hread, hwr]
      · intro c r
        rw [hrd', hrd]
        by_cases h1 : c = j ∧ r = i
        · obtain ⟨rfl, rfl⟩ := h1
          have : r = r ∧ s ≤ c ∧ c < c + 1 := by omega
          simp [this, hv]
        · by_cases h2 : r = i ∧ s ≤ c ∧ c < j
          · have h3 : r = i ∧ s ≤ c ∧ c < j + 1 := by omega
            rw [if_neg h1, if_pos h2, if_pos h3]
          · have h3 : ¬ (r = i ∧ s ≤ c ∧ c < j + 1) := by omega
            rw [if_neg h1, if_neg h2, if_neg h3])
    ⟨ht, by
      intro c r
      have : ¬ (r = i ∧ s ≤ c ∧ c < s) := by omega
      rw [if_neg this]⟩
  have e : s + (w - 1 - s) = w - 1 := by omega
  rw [e] at hrd
  exact ⟨img', hl, hr, hrd⟩

/-- What `RemoveSeam` does in the vertical case on a rectangular grid of width at
least one with a seam of in-range columns, stated on the table reads. -/
theorem RemoveSeam_vertical {img : Image} {w h : Nat} (seam : List Nat)
    (hrect : Rect img.m_table w h) (hw : 1 ≤ w) (hlen : h ≤ seam.length)
    (hseam : ∀ r, r < h → seam.getD r 0 < w) :
    ∃ img', RemoveSeam img seam false = some img' ∧ Rect img'.m_table (w - 1) h ∧
      ∀ c r, c + 1 < w → r < h →
        rd img'.m_table c r = rd img.m_table (if c < seam.getD r 0 then c else c + 1) r := by
  obtain ⟨g, hl, hg, hrd⟩ := forLoop_inv (removeStep seam false)
    (fun i (g : Image) => Rect g.m_table w h ∧
      ∀ c r, rd g.m_table c r =
        if r < i ∧ seam.getD r 0 ≤ c ∧ c < w - 1 then rd img.m_table (c + 1) r
        else rd img.m_table c r)
    h 0 img
    (by
      intro i g _ hi2 ⟨hg, hrd⟩
      have hih : i < h := by omega
      obtain ⟨g', hl', hg', hrd'⟩ := shift_vertical hg i (seam.getD i 0) hih (hseam i hih)
      refine ⟨g', ?_, hg', ?_⟩
      · have hwd : GetImageWidth g = w := hg.1
        simp only [removeStep, getElem?_eq_getD (by omega : i < seam.length), hwd,
          szSub_of_le hw, hl', Option.bind_eq_bind, Option.some_bind, Bool.false_eq_true,
          if_false]
      · intro c r
        rw [hrd']
        by_cases h1 : r = i ∧ seam.getD i 0 ≤ c ∧ c < w - 1
        · obtain ⟨rfl, h2, h3⟩ := h1
          have h4 : r < r + 1 ∧ seam.getD r 0 ≤ c ∧ c < w - 1 := by omega
          have h5 : ¬ (r < r ∧ seam.getD r 0 ≤ c + 1 ∧ c + 1 < w - 1) := by omega
          rw [if_pos ⟨rfl, h2, h3⟩, if_pos h4, hrd, if_neg h5]
        · rw [if_neg h1, hrd]
          by_cases h2 : r < i ∧ seam.getD r 0 ≤ c ∧ c < w - 1
          · have h3 : r < i + 1 ∧ seam.getD r 0 ≤ c ∧ c < w - 1 := by omega
            rw [if_pos h2, if_pos h3]
          · have h3 : ¬ (r < i + 1 ∧ seam.getD r 0 ≤ c ∧ c < w - 1) := by
              intro h4
              by_cases h5 : r = i
              · subst h5; exact h1 ⟨rfl, h4.2⟩
              · exact h2 ⟨by omega, h4.2⟩
            rw [if_neg h2, if_neg h3])
    ⟨hrect, by
      intro c r
      have : ¬ (r < 0 ∧ seam.getD r 0 ≤ c ∧ c < w - 1) := by omega
      rw [if_neg this]⟩
  have hlen' : g.m_table.length = w := hg.1
  refine ⟨⟨g.m_table.dropLast⟩, ?_, rect_dropLast hg, ?_⟩
  · have hne : ¬ (g.m_table.length = 0) := by omega
    simp only [RemoveSeam, GetImageHeight_rect hrect (by omega : 0 < w), hl, popBack, hne,
      Option.bind_eq_bind, Option.some_bind, Bool.false_eq_true, if_false, Bool.not_false,
      if_true]
  · intro c r hc hr
    show rd g.m_table.dropLast c r = _
    rw [rd_dropLast _ _ _ (by omega), hrd]
    by_cases h1 : c < seam.getD r 0
    · have h2 : ¬ (r < 0 + h ∧ seam.getD r 0 ≤ c ∧ c < w - 1) := by omega
      rw [if_neg h2, if_pos h1]
    · have h2 : r < 0 + h ∧ seam.getD r 0 ≤ c ∧ c < w - 1 := by omega
      rw [if_pos h2, if_neg h1]

end Removal

/-- C3: on a rectangular grid of width at least 2, with a seam of length `height`
whose entries are in `[0, width)`, `RemoveVerticalSeam` succeeds and leaves a
rectangular grid one column narrower and of the same height, in which row `r` is the
original row `r` without its pixel at column `seam[r]`: the pixels to the left of
`seam[r]` keep their column, those to the right move one column to the left. -/
theorem RemoveVerticalSeam_deletes_seam (img : Image) (w h : Nat) (seam : List Nat)
    (hrect : Rect img.m_table w h) (hw : 2 ≤ w) (hlen : seam.length = h)
    (hseam : ∀ r, r < h → seam.getD r 0 < w) :
    ∃ img', RemoveVerticalSeam img seam = some img' ∧ Rect img'.m_table (w - 1) h ∧
      ∀ r, r < h → ∀ c, c < w - 1 →
        (c < seam.getD r 0 → GetPixel img' c r = GetPixel img c r) ∧
        (seam.getD r 0 ≤ c → GetPixel img' c r = GetPixel img (c + 1) r) ∧
        ∃ p, GetPixel img' c r = some p := by
  obtain ⟨img', h1, h2, h3⟩ := RemoveSeam_vertical seam hrect (by omega) (by omega) hseam
  refine ⟨img', h1, h2, ?_⟩
  intro r hr c hc
  have h4 := h3 c r (by omega) hr
  refine ⟨?_, ?_, rd_inb h2 hc hr⟩
  · intro hlt
    rw [if_pos hlt] at h4
    exact h4
  · intro hge
    have : ¬ c < seam.getD r 0 := by omega
    rw [if_neg this] at h4
    exact h4

/-- The removal theorem at the 3 x 3 striped grid with the seam `[1, 1, 1]`. -/
theorem RemoveVerticalSeam_deletes_seam_witness :
    Rect (stripes 3).m_table 3 3 ∧
    ∃ img', RemoveVerticalSeam (stripes 3) [1, 1, 1] = some img' ∧
      Rect img'.m_table (3 - 1) 3 ∧
      ∀ r, r < 3 → ∀ c, c < 3 - 1 →
        (c < [1, 1, 1].getD r 0 → GetPixel img' c r = GetPixel (stripes 3) c r) ∧
        ([1, 1, 1].getD r 0 ≤ c → GetPixel img' c r = GetPixel (stripes 3) (c + 1) r) ∧
        ∃ p, GetPixel img' c r = some p :=
  ⟨⟨rfl, by decide⟩,
    RemoveVerticalSeam_deletes_seam (stripes 3) 3 3 [1, 1, 1] ⟨rfl, by decide⟩ (by decide) rfl
      (by decide)⟩

/-- C4, at the failing input: on the 2 x 2 grid with the seam `[0, 0]`,
`RemoveHorizontalSeam` deletes row 0 of column 0 but row 1 of column 1 (the pixel with
red value 4 is lost and the seam pixel with red value 3 is kept), because the bound
`GetImageHeight() - 1` of the shift loop is read from column 0 after that column has
already been shortened. -/
theorem RemoveHorizontalSeam_second_column_off_by_one :
    RemoveHorizontalSeam grid2x2 [0, 0] = some ⟨[[⟨2, 0, 0⟩], [⟨3, 0, 0⟩]]⟩ ∧
    GetPixel grid2x2 1 1 = some ⟨4, 0, 0⟩ := by
  decide

/-- C5: on a rectangular grid, at every in-range `(c, r)`, `GetPixelEnergy(c, r)` is
`sqrt(dx + dy)`, where `dx` and `dy` are the sums over the three channels of the
squared signed differences of the wrap-around neighbours `left`/`right` and
`up`/`down` at `((c + w - 1) mod w, r)`, `((c + 1) mod w, r)`, `(c, (r + h - 1) mod h)`
and `(c, (r + 1) mod h)`. -/
theorem GetPixelEnergy_dual_gradient (img : Image) (w h c r : Nat)
    (hrect : Rect img.m_table w h) (hc : c < w) (hr : r < h) :
    ∃ left right up down,
      GetPixel img ((c + w - 1) % w) r = some left ∧
      GetPixel img ((c + 1) % w) r = some right ∧
      GetPixel img c ((r + h - 1) % h) = some up ∧
      GetPixel img c ((r + 1) % h) = some down ∧
      GetPixelEnergy Real.sqrt img c r =
        some (Real.sqrt (((channelSqSum left right : Int) : ℝ)
          + ((channelSqSum up down : Int) : ℝ))) := by
  have hw : 0 < w := by omega
  have hh : 0 < h := by omega
  refine ⟨_, _, _, _, GetPixel_inb hrect (Nat.mod_lt _ hw) hr,
    GetPixel_inb hrect (Nat.mod_lt _ hw) hr, GetPixel_inb hrect hc (Nat.mod_lt _ hh),
    GetPixel_inb hrect hc (Nat.mod_lt _ hh), ?_⟩
  rw [GetPixelEnergy_eq Real.sqrt hrect hc hr, Delta_eq_channelSqSum, Delta_eq_channelSqSum]

/-- The energy formula at the top pixel of the grid of width 1 and height 5, where
both horizontal neighbours wrap around to the pixel itself. -/
theorem GetPixelEnergy_dual_gradient_witness :
    Rect grid1x5.m_table 1 5 ∧
    ∃ left right up down,
      GetPixel grid1x5 ((0 + 1 - 1) % 1) 0 = some left ∧
      GetPixel grid1x5 ((0 + 1) % 1) 0 = some right ∧
      GetPixel grid1x5 0 ((0 + 5 - 1) % 5) = some up ∧
      GetPixel grid1x5 0 ((0 + 1) % 5) = some down ∧
      GetPixelEnergy Real.sqrt grid1x5 0 0 =
        some (Real.sqrt (((channelSqSum left right : Int) : ℝ)
          + ((channelSqSum up down : Int) : ℝ))) :=
  ⟨⟨rfl, by decide⟩,
    GetPixelEnergy_dual_gradient grid1x5 1 5 0 0 ⟨rfl, by decide⟩ (by decide) (by decide)⟩

/-- C6: on a rectangular grid, at every in-range `(c, r)`, `GetPixelEnergy(c, r)` is
non-negative, and it is `0` only if the left and right wrap-around neighbours are the
same pixel value and the up and down wrap-around neighbours are the same pixel
value. -/
theorem GetPixelEnergy_nonneg_zero (img : Image) (w h c r : Nat)
    (hrect : Rect img.m_table w h) (hc : c < w) (hr : r < h) :
    ∃ e left right up down,
      GetPixelEnergy Real.sqrt img c r = some e ∧
      GetPixel img ((c + w - 1) % w) r = some left ∧
      GetPixel img ((c + 1) % w) r = some right ∧
      GetPixel img c ((r + h - 1) % h) = some up ∧
      GetPixel img c ((r + 1) % h) = some down ∧
      0 ≤ e ∧ (e = 0 → left = right ∧ up = down) := by
  have hw : 0 < w := by omega
  have hh : 0 < h := by omega
  refine ⟨_, _, _, _, _, GetPixelEnergy_eq Real.sqrt hrect hc hr,
    GetPixel_inb hrect (Nat.mod_lt _ hw) hr,
    GetPixel_inb hrect (Nat.mod_lt _ hw) hr, GetPixel_inb hrect hc (Nat.mod_lt _ hh),
    GetPixel_inb hrect hc (Nat.mod_lt _ hh), Real.sqrt_nonneg _, ?_⟩
  intro h0
  rw [Delta_eq_channelSqSum, Delta_eq_channelSqSum] at h0
  have n1 := channelSqSum_nonneg (pixAt img ((c + w - 1) % w) r) (pixAt img ((c + 1) % w) r)
  have n2 := channelSqSum_nonneg (pixAt img c ((r + h - 1) % h)) (pixAt img c ((r + 1) % h))
  have hsum : (0 : ℝ) ≤ ((channelSqSum (pixAt img ((c + w - 1) % w) r)
      (pixAt img ((c + 1) % w) r) : Int) : ℝ)
      + ((channelSqSum (pixAt img c ((r + h - 1) % h)) (pixAt img c ((r + 1) % h)) : Int) : ℝ) := by
    have a1 : (0 : ℝ) ≤ ((channelSqSum (pixAt img ((c + w - 1) % w) r)
      (pixAt img ((c + 1) % w) r) : Int) : ℝ) := by exact_mod_cast n1
    have a2 : (0 : ℝ) ≤ ((channelSqSum (pixAt img c ((r + h - 1) % h))
      (pixAt img c ((r + 1) % h)) : Int) : ℝ) := by exact_mod_cast n2
    linarith
  have hz := (Real.sqrt_eq_zero hsum).1 h0
  have hz' : channelSqSum (pixAt img ((c + w - 1) % w) r) (pixAt img ((c + 1) % w) r)
      + channelSqSum (pixAt img c ((r + h - 1) % h)) (pixAt img c ((r + 1) % h)) = 0 := by
    exact_mod_cast hz
  exact ⟨channelSqSum_eq_zero (by omega), channelSqSum_eq_zero (by omega)⟩

/-- The sign theorem at the centre of the 3 x 3 striped grid, where the energy is
zero. -/
theorem GetPixelEnergy_nonneg_zero_witness :
    Rect (stripes 3).m_table 3 3 ∧
    ∃ e left right up down,
      GetPixelEnergy Real.sqrt (stripes 3) 1 1 = some e ∧
      GetPixel (stripes 3) ((1 + 3 - 1) % 3) 1 = some left ∧
      GetPixel (stripes 3) ((1 + 1) % 3) 1 = some right ∧
      GetPixel (stripes 3) 1 ((1 + 3 - 1) % 3) = some up ∧
      GetPixel (stripes 3) 1 ((1 + 1) % 3) = some down ∧
      0 ≤ e ∧ (e = 0 → left = right ∧ up = down) :=
  ⟨⟨rfl, by decide⟩,
    GetPixelEnergy_nonneg_zero (stripes 3) 3 3 1 1 ⟨rfl, by decide⟩ (by decide) (by decide)⟩

/-- C7, at every input: `FindHorizontalSeam` has an empty body and produces no seam,
so it returns no sequence of length `width`. -/
theorem FindHorizontalSeam_returns_nothing (img : Image) : FindHorizontalSeam img = none :=
  rfl

/-- C8: starting from a rectangular grid of width `w ≥ 2` and height `h ≥ 1` (at
most `2 ^ 53` rows), the step `seam := FindVerticalSeam(); RemoveVerticalSeam(seam)`
can be repeated `k` times for every `k ≤ w - 1` without any failure, and the grid
after `k` steps is rectangular of height `h` and width `w - k`; after `w - 1` steps
the width is 1. -/
theorem carveLoop_shrinks_to_width_one (img : Image) (w h : Nat)
    (hrect : Rect img.m_table w h) (hw : 2 ≤ w) (hh : 1 ≤ h) (hsize : h ≤ 2 ^ 53) :
    (∀ k, k ≤ w - 1 →
      ∃ img', carveLoop Real.sqrt k img = some img' ∧ Rect img'.m_table (w - k) h) ∧
    ∃ img', carveLoop Real.sqrt (w - 1) img = some img' ∧ Rect img'.m_table 1 h := by
  have key : ∀ (k : Nat) (g : Image) (v : Nat), Rect g.m_table v h → k + 1 ≤ v →
      ∃ g', carveLoop Real.sqrt k g = some g' ∧ Rect g'.m_table (v - k) h := by
    intro k
    induction k with
    | zero => intro g v hg _; exact ⟨g, rfl, hg⟩
    | succ k ih =>
      intro g v hg hv
      obtain ⟨s, hfind, hlen, hin, _⟩ :=
        FindVerticalSeam_isSeam hg (by omega : 2 ≤ v) hh hsize
      obtain ⟨g1, hrem, hg1, _⟩ := RemoveSeam_vertical s hg (by omega) (by omega) hin
      obtain ⟨g2, hloop, hg2⟩ := ih g1 (v - 1) hg1 (by omega)
      refine ⟨g2, ?_, ?_⟩
      · simp [carveLoop, carveStep, hfind, RemoveVerticalSeam, hrem, hloop]
      · have e : v - 1 - k = v - (k + 1) := by omega
        rwa [e] at hg2
  refine ⟨fun k hk => key k img w hrect (by omega), ?_⟩
  obtain ⟨g, h1, h2⟩ := key (w - 1) img w hrect (by omega)
  have e : w - (w - 1) = 1 := by omega
  rw [e] at h2
  exact ⟨g, h1, h2⟩

/-- The shrink loop on the 3 x 3 striped grid: two steps, down to width 1. -/
theorem carveLoop_shrinks_to_width_one_witness :
    Rect (stripes 3).m_table 3 3 ∧
    ((∀ k, k ≤ 3 - 1 →
      ∃ img', carveLoop Real.sqrt k (stripes 3) = some img' ∧ Rect img'.m_table (3 - k) 3) ∧
    ∃ img', carveLoop Real.sqrt (3 - 1) (stripes 3) = some img' ∧ Rect img'.m_table 1 3) :=
  ⟨⟨rfl, by decide⟩,
    carveLoop_shrinks_to_width_one (stripes 3) 3 3 ⟨rfl, by decide⟩ (by decide) (by decide)
      (by norm_num)⟩

section Stripes

theorem rect_stripes (h : Nat) : Rect (stripes h).m_table 3 h := by
  refine ⟨rfl, ?_⟩
  intro col hcol
  simp only [stripes, List.mem_cons, List.mem_singleton, List.not_mem_nil, or_false] at hcol
  rcases hcol with rfl | rfl | rfl <;> simp

theorem pixAt_stripes {h r : Nat} (hr : r < h) :
    pixAt (stripes h) 0 r = white ∧ pixAt (stripes h) 1 r = black ∧
      pixAt (stripes h) 2 r = white := by
  simp [pixAt, rd, stripes, List.getElem?_replicate, hr]

theorem Delta_self {α : Type} [LinearOrderedField α] (p : Pixel) : (Delta p p : α) = 0 := by
  simp [Delta]

/-- The energy of a white column next to the black one: `sqrt 195075`. -/
theorem energyAt_stripes {h r : Nat} (hr : r < h) :
    energyAt Real.sqrt (stripes h) 0 r = Real.sqrt 195075 ∧
    energyAt Real.sqrt (stripes h) 1 r = 0 ∧
    energyAt Real.sqrt (stripes h) 2 r = Real.sqrt 195075 := by
  have hh : 0 < h := by omega
  have hu : (r + h - 1) % h < h := Nat.mod_lt _ hh
  have hd : (r + 1) % h < h := Nat.mod_lt _ hh
  have hwb : (Delta white black : ℝ) = 195075 := by
    have e : channelSqSum white black = 195075 := by decide
    rw [Delta_eq_channelSqSum, e]
    norm_num
  have hbw : (Delta black white : ℝ) = 195075 := by
    have e : channelSqSum black white = 195075 := by decide
    rw [Delta_eq_channelSqSum, e]
    norm_num
  refine ⟨?_, ?_, ?_⟩
  · rw [energyAt, GetPixelEnergy_eq Real.sqrt (rect_stripes h) (by omega : 0 < 3) hr]
    simp only [Option.getD_some]
    have e1 : (0 + 3 - 1) % 3 = 2 := by norm_num
    have e2 : (0 + 1) % 3 = 1 := by norm_num
    rw [e1, e2, (pixAt_stripes hr).2.2, (pixAt_stripes hr).2.1, (pixAt_stripes hu).1,
      (pixAt_stripes hd).1, Delta_self, hwb, add_zero]
  · rw [energyAt, GetPixelEnergy_eq Real.sqrt (rect_stripes h) (by omega : 1 < 3) hr]
    simp only [Option.getD_some]
    have e1 : (1 + 3 - 1) % 3 = 0 := by norm_num
    have e2 : (1 + 1) % 3 = 2 := by norm_num
    rw [e1, e2, (pixAt_stripes hr).1, (pixAt_stripes hr).2.2, (pixAt_stripes hu).2.1,
      (pixAt_stripes hd).2.1, Delta_self, Delta_self, add_zero, Real.sqrt_zero]
  · rw [energyAt, GetPixelEnergy_eq Real.sqrt (rect_stripes h) (by omega : 2 < 3) hr]
    simp only [Option.getD_some]
    have e1 : (2 + 3 - 1) % 3 = 1 := by norm_num
    have e2 : (2 + 1) % 3 = 0 := by norm_num
    rw [e1, e2, (pixAt_stripes hr).2.1, (pixAt_stripes hr).1, (pixAt_stripes hu).2.2,
      (pixAt_stripes hd).2.2, Delta_self, hbw, add_zero]

theorem sqrt_stripe_pos : (0 : ℝ) < Real.sqrt 195075 :=
  Real.sqrt_pos.2 (by norm_num)

theorem cost_stripes {h : Nat} :
    ∀ r, r < h →
      cost (energyAt Real.sqrt (stripes h)) 3 r 0 = Real.sqrt 195075 ∧
      cost (energyAt Real.sqrt (stripes h)) 3 r 1 = 0 ∧
      cost (energyAt Real.sqrt (stripes h)) 3 r 2 = Real.sqrt 195075 := by
  intro r
  induction r with
  | zero =>
    intro hr
    simpa [cost] using energyAt_stripes hr
  | succ r ih =>
    intro hr
    obtain ⟨c0, c1, c2⟩ := ih (by omega)
    obtain ⟨e0, e1, e2⟩ := energyAt_stripes hr
    have hpos := sqrt_stripe_pos
    refine ⟨?_, ?_, ?_⟩
    · rw [cost_succ_zero, c0, c1, e0, min_eq_right (le_of_lt hpos), zero_add]
    · rw [cost_succ_mid _ (by omega) (by omega), c1, e1]
      have e : (1 : Nat) - 1 = 0 := rfl
      rw [e, c0, c2, min_self, min_eq_left (le_of_lt hpos), add_zero]
    · have := cost_succ_last (energyAt Real.sqrt (stripes h)) (by omega : 2 ≤ 3) r
      have e : (3 : Nat) - 1 = 2 := rfl
      have e' : (3 : Nat) - 2 = 1 := rfl
      rw [e, e'] at this
      rw [this, c2, c1, e2, min_eq_right (le_of_lt hpos), zero_add]

theorem predCol_stripes {h k : Nat} (hk : k + 1 < h) :
    predCol (energyAt Real.sqrt (stripes h)) 3 k 1 = 1 := by
  obtain ⟨c0, c1, c2⟩ := cost_stripes k (by omega : k < h)
  obtain ⟨_, d1, _⟩ := cost_stripes (k + 1) hk
  obtain ⟨_, e1, _⟩ := energyAt_stripes hk
  have hne : (0 : ℝ) ≠ Real.sqrt 195075 := ne_of_lt sqrt_stripe_pos
  unfold predCol
  have e : (1 : Nat) - 1 = 0 := rfl
  rw [d1, e1, e, c0, c2, sub_zero]
  simp [hne]

theorem traceBack_stripes {h : Nat} :
    ∀ n, n < h → ∀ st : List Nat,
      traceBack (energyAt Real.sqrt (stripes h)) 3 n 1 st = List.replicate (n + 1) 1 ++ st := by
  intro n
  induction n with
  | zero => intro _ st; rfl
  | succ n ih =>
    intro hn st
    rw [traceBack, predCol_stripes hn, ih (by omega)]
    rw [List.replicate_succ' (n + 1), List.append_assoc]
    rfl

end Stripes

/-- C9: for every height `h ≥ 1`, on the grid of width 3 whose column 1 is black and
whose columns 0 and 2 are white, `FindVerticalSeam` (exact real arithmetic) returns
the seam with entry 1 in every row, and `RemoveVerticalSeam` of that seam yields a
rectangular grid of width 2 and height `h` in which every pixel is white. -/
theorem stripes_center_seam (h : Nat) (hh : 1 ≤ h) :
    FindVerticalSeam Real.sqrt (stripes h) = some (List.replicate h 1) ∧
    ∃ img', RemoveVerticalSeam (stripes h) (List.replicate h 1) = some img' ∧
      Rect img'.m_table 2 h ∧
      ∀ c r, c < 2 → r < h → GetPixel img' c r = some white := by
  have hrect := rect_stripes h
  obtain ⟨c0, c1, c2⟩ := cost_stripes (h := h) (h - 1) (by omega)
  have hpos := sqrt_stripe_pos
  have hS : cost (energyAt Real.sqrt (stripes h)) 3 (h - 1) 0 ≤ (INT64_MAX : ℝ) := by
    rw [c0, Real.sqrt_le_iff]
    unfold INT64_MAX
    norm_num
  obtain ⟨a, ha, hmin, _, hfind⟩ := FindVerticalSeam_eq Real.sqrt hrect (by omega) hh hS
  have ha1 : a = 1 := by
    have h1 := hmin 1 (by omega)
    rw [c1] at h1
    have : a = 0 ∨ a = 1 ∨ a = 2 := by omega
    rcases this with rfl | rfl | rfl
    · rw [c0] at h1; linarith
    · rfl
    · rw [c2] at h1; linarith
  subst ha1
  have hseam : ∀ r, r < h → (List.replicate h 1).getD r 0 < 3 := by
    intro r hr
    simp [List.getD, List.getElem?_replicate, hr]
  refine ⟨?_, ?_⟩
  · rw [hfind, traceBack_stripes (h - 1) (by omega)]
    have : h - 1 + 1 = h := by omega
    simp [this]
  · obtain ⟨img', hrem, hr', hrd⟩ := RemoveSeam_vertical (List.replicate h 1) hrect
      (by omega) (by simp) hseam
    refine ⟨img', hrem, hr', ?_⟩
    intro c r hc hr
    have hv := hrd c r (by omega) hr
    have hget : (List.replicate h 1).getD r 0 = 1 := by
      simp [List.getD, List.getElem?_replicate, hr]
    rw [hget] at hv
    have hcc : c = 0 ∨ c = 1 := by omega
    rcases hcc with rfl | rfl
    · show rd img'.m_table 0 r = some white
      rw [hv]
      simp [rd, stripes, List.getElem?_replicate, hr]
    · show rd img'.m_table 1 r = some white
      rw [hv]
      simp [rd, stripes, List.getElem?_replicate, hr]

/-- The 3 x 3 grid of the spec's scenario. -/
theorem stripes_center_seam_witness :
    FindVerticalSeam Real.sqrt (stripes 3) = some (List.replicate 3 1) ∧
    ∃ img', RemoveVerticalSeam (stripes 3) (List.replicate 3 1) = some img' ∧
      Rect img'.m_table 2 3 ∧
      ∀ c r, c < 2 → r < 3 → GetPixel img' c r = some white :=
  stripes_center_seam 3 (by decide)

section WidthOne

variable {α : Type} [LinearOrderedField α]

/-- On a grid of width 1 the forward pass of `FindVerticalSeam` reads `dp[1][i - 1]`,
a column the table does not have, as soon as there is a second row. -/
theorem rowStep_width_one (sq : α → α) (img : Image) (width i h : Nat)
    (dp : List (List α)) (hdp : Rect dp 1 h) : rowStep sq img width i dp = none := by
  have h1 : rd dp 1 (i - 1) = none := rd_col_oob hdp (le_refl 1)
  unfold rowStep
  cases h0 : rd dp 0 (i - 1) with
  | none => simp
  | some a => simp [h1]

theorem FindVerticalSeam_width_one (sq : α → α) {img : Image} {h : Nat}
    (hrect : Rect img.m_table 1 h) (hh : 2 ≤ h) : FindVerticalSeam sq img = none := by
  obtain ⟨dp0, hl, hd0, _⟩ := firstRow_loop sq hrect (by omega : 1 ≤ h) _
    (rect_replicate 1 h (0 : α))
  have hw : GetImageWidth img = 1 := hrect.1
  obtain ⟨k, hk⟩ : ∃ k, h - 1 = k + 1 := ⟨h - 2, by omega⟩
  have hrow : forLoop (rowStep sq img 1) (k + 1) 1 dp0 = none := by
    rw [forLoop, rowStep_width_one sq img 1 1 h dp0 hd0]
  simp only [FindVerticalSeam, GetImageHeight_rect hrect (by omega : 0 < 1), hw, hl, hk, hrow,
    Option.bind_eq_bind, Option.some_bind, Option.none_bind]

end WidthOne

/-- C10, at the failing input: on the grid of width 1 and height 5,
`FindVerticalSeam` does not return the all-zero seam: its forward pass reads
`dp[1][0]`, outside the one-column cost table. -/
theorem FindVerticalSeam_grid1x5_out_of_range :
    FindVerticalSeam Real.sqrt grid1x5 = none :=
  FindVerticalSeam_width_one Real.sqrt (h := 5) ⟨rfl, by decide⟩ (by decide)

section LoopBounds

/-- A property of the state that every iteration preserves is preserved by the
loop. -/
theorem forLoop_preserves {σ : Type} (body : Nat → σ → Option σ) (P : σ → Prop)
    (hbody : ∀ i s s', P s → body i s = some s' → P s') :
    ∀ (n a : Nat) (s s' : σ), P s → forLoop body n a s = some s' → P s' := by
  intro n
  induction n with
  | zero =>
    intro a s s' hP h
    simp only [forLoop, Option.some.injEq] at h
    exact h ▸ hP
  | succ n ih =>
    intro a s s' hP h
    rw [forLoop] at h
    cases hb : body a s with
    | none => rw [hb] at h; exact absurd h (by simp)
    | some s1 =>
      rw [hb] at h
      exact ih (a + 1) s1 s' (hbody a s s1 hP hb) h

/-- An element assignment changes neither the number of columns nor the size of any
column. -/
theorem wr_sizes {β : Type} {t t' : List (List β)} {c r : Nat} {v : β}
    (h : wr t c r v = some t') :
    t'.length = t.length ∧
      ∀ k : Nat, (t'[k]?).map List.length = (t[k]?).map List.length := by
  unfold wr at h
  cases hc : t[c]? with
  | none => rw [hc] at h; exact absurd h (by simp)
  | some col =>
    rw [hc] at h
    by_cases hr : r < col.length
    · simp only [hr, if_true, Option.some.injEq] at h
      subst h
      refine ⟨by simp, ?_⟩
      intro k
      by_cases hk : c = k
      · subst hk
        have hlt : c < t.length := by
          by_contra hge
          rw [List.getElem?_eq_none (by omega)] at hc
          exact absurd hc (by simp)
        simp [List.getElem?_set, hlt, hc]
      · simp [List.getElem?_set, hk]
    · simp [hr] at h

/-- The body of the shift loop of `RemoveSeam` leaves `GetImageWidth()` and
`GetImageHeight()`, hence the bound of that loop, unchanged. -/
theorem shiftStep_sizes {isHorizontal : Bool} {i j : Nat} {img img' : Image}
    (h : shiftStep isHorizontal i j img = some img') :
    GetImageWidth img' = GetImageWidth img ∧ GetImageHeight img' = GetImageHeight img := by
  have key : ∀ {t' : List (List Pixel)} {c r : Nat} {v : Pixel},
      wr img.m_table c r v = some t' →
      GetImageWidth ⟨t'⟩ = GetImageWidth img ∧ GetImageHeight ⟨t'⟩ = GetImageHeight img := by
    intro t' c r v hw
    obtain ⟨h1, h2⟩ := wr_sizes hw
    refine ⟨h1, ?_⟩
    have h0 := h2 0
    unfold GetImageHeight
    cases ha : t'[0]? with
    | none =>
      cases hb : img.m_table[0]? with
      | none => rfl
      | some cb => rw [ha, hb] at h0; simp at h0
    | some ca =>
      cases hb : img.m_table[0]? with
      | none => rw [ha, hb] at h0; simp at h0
      | some cb => rw [ha, hb] at h0; simpa using h0
  unfold shiftStep at h
  cases isHorizontal with
  | true =>
    simp only [if_true, Option.bind_eq_bind] at h
    cases hv : rd img.m_table i (j + 1) with
    | none => rw [hv] at h; simp at h
    | some v =>
      rw [hv] at h
      cases hw : wr img.m_table i j v with
      | none => rw [Option.some_bind, hw] at h; simp at h
      | some t' =>
        rw [Option.some_bind, hw] at h
        simp only [Option.some_bind, Option.some.injEq] at h
        subst h
        exact key hw
  | false =>
    simp only [Bool.false_eq_true, if_false, Option.bind_eq_bind] at h
    cases hv : rd img.m_table (j + 1) i with
    | none => rw [hv] at h; simp at h
    | some v =>
      rw [hv] at h
      cases hw : wr img.m_table j i v with
      | none => rw [Option.some_bind, hw] at h; simp at h
      | some t' =>
        rw [Option.some_bind, hw] at h
        simp only [Option.some_bind, Option.some.injEq] at h
        subst h
        exact key hw

/-- The body of the outer loop of `RemoveSeam` leaves the bound of that loop
unchanged: the number of columns in the horizontal case, the size of column 0 in the
vertical case. -/
theorem removeStep_bound {seam : List Nat} {isHorizontal : Bool} {i : Nat}
    {img img' : Image} (h : removeStep seam isHorizontal i img = some img') :
    (if isHorizontal then some (GetImageWidth img') else GetImageHeight img') =
      (if isHorizontal then some (GetImageWidth img) else GetImageHeight img) := by
  unfold removeStep at h
  cases hs : seam[i]? with
  | none => rw [hs] at h; simp at h
  | some s =>
    rw [hs] at h
    simp only [Option.bind_eq_bind, Option.some_bind] at h
    cases hb : (if isHorizontal then GetImageHeight img else some (GetImageWidth img)) with
    | none => rw [hb] at h; simp at h
    | some bound =>
      rw [hb] at h
      simp only [Option.some_bind] at h
      cases hl : forLoop (shiftStep isHorizontal i) (szSub bound 1 - s) s img with
      | none => rw [hl] at h; simp at h
      | some g =>
        rw [hl] at h
        simp only [Option.some_bind] at h
        have hg := forLoop_preserves (shiftStep isHorizontal i)
          (fun x => GetImageWidth x = GetImageWidth img ∧ GetImageHeight x = GetImageHeight img)
          (fun k x x' hx hstep => by
            obtain ⟨a1, a2⟩ := shiftStep_sizes hstep
            exact ⟨a1.trans hx.1, a2.trans hx.2⟩)
          _ _ img g ⟨rfl, rfl⟩ hl
        cases isHorizontal with
        | false =>
          simp only [Bool.false_eq_true, if_false, Option.some.injEq] at h ⊢
          subst h
          exact hg.2
        | true =>
          simp only [if_true] at h ⊢
          cases hc : g.m_table[i]? with
          | none => rw [hc] at h; simp at h
          | some col =>
            rw [hc] at h
            simp only [Option.some_bind] at h
            cases hp : popBack col with
            | none => rw [hp] at h; simp at h
            | some col' =>
              rw [hp] at h
              simp only [Option.some_bind, Option.some.injEq] at h
              subst h
              have : GetImageWidth ⟨g.m_table.set i col'⟩ = GetImageWidth g := by
                simp [GetImageWidth]
              rw [this, hg.1]

end LoopBounds

/-- On the grid of a single pixel there is no second row: the forward pass and the
backtrace do not run and `FindVerticalSeam` returns `[0]`. -/
theorem FindVerticalSeam_one_pixel (p : Pixel) :
    FindVerticalSeam Real.sqrt ⟨[[p]]⟩ = some [0] := by
  simp [FindVerticalSeam, GetImageHeight, GetImageWidth, forLoop, firstRowStep, GetPixelEnergy,
    GetPixel, rd, wr, szSub, Delta_self, anchorStep, downLoop, BuildSeam, BuildSeam.loop]
  unfold INT64_MAX
  norm_num

section SpecCostFacts

variable {α : Type} [LinearOrderedField α]

/-- On a grid of width at least 2 the table filled by the forward pass of
`FindVerticalSeam` is the table of the specification. -/
theorem specCost_eq_cost (E : Nat → Nat → α) {w : Nat} (hw : 2 ≤ w) :
    ∀ (r c : Nat), c < w → specCost E w c r = cost E w r c := by
  intro r
  induction r with
  | zero => intro c _; simp [specCost, cost]
  | succ r ih =>
    intro c hc
    by_cases h0 : c = 0
    · subst h0
      have h1 : (0 : Nat) < w - 1 := by omega
      rw [cost_succ_zero]
      simp only [specCost, lt_irrefl, false_and, if_false, h1, if_true, Nat.zero_add]
      rw [ih 0 (by omega), ih 1 (by omega), add_comm]
    · by_cases hl : c = w - 1
      · subst hl
        rw [cost_succ_last E hw]
        have h1 : 0 < w - 1 := by omega
        have e : w - 1 - 1 = w - 2 := by omega
        simp only [specCost, lt_irrefl, and_false, if_false, h1, if_true, e]
        rw [ih (w - 1) (by omega), ih (w - 2) (by omega), add_comm, min_comm]
      · rw [cost_succ_mid E h0 hl]
        have h1 : 0 < c ∧ c < w - 1 := by omega
        simp only [specCost, h1, and_self, if_true]
        rw [ih c (by omega), ih (c - 1) (by omega), ih (c + 1) (by omega), add_comm]
        congr 1
        rw [min_left_comm, min_comm (cost E w r (c - 1))]

/-- The entries of the backtrace: entry `n` is the start column, the entries after
it are the stack, and each earlier entry `k` is the column chosen from entry
`k + 1`. -/
theorem traceBack_getD (E : Nat → Nat → α) (w : Nat) :
    ∀ (n start : Nat) (st : List Nat),
      (traceBack E w n start st).getD n 0 = start ∧
      (∀ j, (traceBack E w n start st).getD (n + 1 + j) 0 = st.getD j 0) ∧
      ∀ k, k < n → (traceBack E w n start st).getD k 0 =
        predCol E w k ((traceBack E w n start st).getD (k + 1) 0) := by
  intro n
  induction n with
  | zero =>
    intro start st
    refine ⟨rfl, ?_, ?_⟩
    · intro j
      have e : 0 + 1 + j = j + 1 := by omega
      rw [e]
      rfl
    · intro k hk; omega
  | succ n ih =>
    intro start st
    obtain ⟨h1, h2, h3⟩ := ih (predCol E w n start) (start :: st)
    have hnext : (traceBack E w (n + 1) start st).getD (n + 1) 0 = start := by
      have := h2 0
      simpa [traceBack] using this
    refine ⟨hnext, ?_, ?_⟩
    · intro j
      have := h2 (j + 1)
      have e : n + 1 + (j + 1) = n + 1 + 1 + j := by omega
      rw [e] at this
      rw [traceBack, this]
      rfl
    · intro k hk
      by_cases hkn : k = n
      · subst hkn
        rw [hnext]
        exact h1
      · exact h3 k (by omega)

end SpecCostFacts

section SmallGrids

theorem wrap_eq_of_le_two {n i : Nat} (hn : n ≤ 2) (hi : i < n) :
    (i + n - 1) % n = (i + 1) % n := by
  have : n = 1 ∨ n = 2 := by omega
  rcases this with rfl | rfl
  · simp [Nat.mod_one]
  · have e : i + 2 - 1 = i + 1 := by omega
    rw [e]

/-- On a grid of width at most 2 and height at most 2 every energy is zero. -/
theorem energyAt_small {img : Image} {w h c r : Nat} (hrect : Rect img.m_table w h)
    (hw : w ≤ 2) (hh : h ≤ 2) (hc : c < w) (hr : r < h) :
    energyAt Real.sqrt img c r = 0 := by
  rw [energyAt, GetPixelEnergy_eq Real.sqrt hrect hc hr, wrap_eq_of_le_two hw hc,
    wrap_eq_of_le_two hh hr, Delta_self, Delta_self]
  simp

theorem zero_le_sentinel : (0 : ℝ) ≤ (INT64_MAX : ℝ) := by
  unfold INT64_MAX
  norm_num

end SmallGrids

/-- C14: on a rectangular grid of width at least 2 and of 1 to `2 ^ 53` rows, with
exact real arithmetic and `cost` the table of the specification, the seam `s`
returned by `FindVerticalSeam` has total energy equal to the minimum over the columns
`c` of `cost[c][height - 1]`, and for every row `≥ 1`,
`cost[s[row]][row] - Energy(s[row], row) = cost[s[row - 1]][row - 1]`. -/
theorem FindVerticalSeam_total_is_min_final_cost (img : Image) (w h : Nat)
    (hrect : Rect img.m_table w h) (hw : 2 ≤ w) (hh : 1 ≤ h) (hsize : h ≤ 2 ^ 53) :
    ∃ s total, FindVerticalSeam Real.sqrt img = some s ∧
      seamEnergy Real.sqrt img s = some total ∧
      (∃ c, c < w ∧ total = specCost (energyAt Real.sqrt img) w c (h - 1)) ∧
      (∀ c, c < w → total ≤ specCost (energyAt Real.sqrt img) w c (h - 1)) ∧
      ∀ row, 1 ≤ row → row < h →
        specCost (energyAt Real.sqrt img) w (s.getD row 0) row
            - energyAt Real.sqrt img (s.getD row 0) row
          = specCost (energyAt Real.sqrt img) w (s.getD (row - 1) 0) (row - 1) := by
  obtain ⟨a, haw, hmin, _, hfind⟩ := FindVerticalSeam_eq Real.sqrt hrect hw hh
    (cost_le_sentinel hrect hw hh hsize 0 (by omega))
  have hseam := traceBack_isSeam (energyAt Real.sqrt img) (w := w) hh haw
  have htot : pathEnergy (energyAt Real.sqrt img) 0
      (traceBack (energyAt Real.sqrt img) w (h - 1) a [])
      = cost (energyAt Real.sqrt img) w (h - 1) a := by
    rw [traceBack_energy _ hw _ _ _ haw]
    simp [pathEnergy]
  refine ⟨_, _, hfind, seamEnergy_eq Real.sqrt hrect _ hseam, ⟨a, haw, ?_⟩, ?_, ?_⟩
  · rw [htot, specCost_eq_cost _ hw _ _ haw]
  · intro c hc
    rw [htot, specCost_eq_cost _ hw _ _ hc]
    exact hmin c hc
  · intro row h1 h2
    obtain ⟨k, rfl⟩ : ∃ k, row = k + 1 := ⟨row - 1, by omega⟩
    obtain ⟨_, _, hpred⟩ := traceBack_getD (energyAt Real.sqrt img) w (h - 1) a []
    have hc := hseam.2.1 (k + 1) h2
    have hp := hseam.2.1 k (by omega)
    rw [Nat.add_sub_cancel, specCost_eq_cost _ hw _ _ hc, specCost_eq_cost _ hw _ _ hp,
      hpred k (by omega), ← predCol_cost (energyAt Real.sqrt img) hw hc]
    ring

/-- The cost-table theorem at the 3 x 3 striped grid. -/
theorem FindVerticalSeam_total_is_min_final_cost_witness :
    Rect (stripes 3).m_table 3 3 ∧
    ∃ s total, FindVerticalSeam Real.sqrt (stripes 3) = some s ∧
      seamEnergy Real.sqrt (stripes 3) s = some total ∧
      (∃ c, c < 3 ∧ total = specCost (energyAt Real.sqrt (stripes 3)) 3 c (3 - 1)) ∧
      (∀ c, c < 3 → total ≤ specCost (energyAt Real.sqrt (stripes 3)) 3 c (3 - 1)) ∧
      ∀ row, 1 ≤ row → row < 3 →
        specCost (energyAt Real.sqrt (stripes 3)) 3 (s.getD row 0) row
            - energyAt Real.sqrt (stripes 3) (s.getD row 0) row
          = specCost (energyAt Real.sqrt (stripes 3)) 3 (s.getD (row - 1) 0) (row - 1) :=
  ⟨⟨rfl, by decide⟩,
    FindVerticalSeam_total_is_min_final_cost (stripes 3) 3 3 ⟨rfl, by decide⟩ (by decide)
      (by decide) (by norm_num)⟩

/-- C15, counterexample: on the grid of width 2 and height 1 both columns have final
cost 0, column 0 is the smallest minimising column, and `FindVerticalSeam` returns
the seam `[1]`. -/
theorem FindVerticalSeam_anchor_not_first :
    FindVerticalSeam Real.sqrt grid2x1 = some [1] ∧
    ∀ c, c < 2 → specCost (energyAt Real.sqrt grid2x1) 2 0 0
      ≤ specCost (energyAt Real.sqrt grid2x1) 2 c 0 := by
  have hrect : Rect grid2x1.m_table 2 1 := ⟨rfl, by decide⟩
  have hE : ∀ c, c < 2 → energyAt Real.sqrt grid2x1 c 0 = 0 := fun c hc =>
    energyAt_small hrect (le_refl 2) (by omega) hc (by omega)
  have hcost : ∀ c, c < 2 → cost (energyAt Real.sqrt grid2x1) 2 0 c = 0 := by
    intro c hc
    simpa [cost] using hE c hc
  obtain ⟨a, ha, _, hlast, hfind⟩ := FindVerticalSeam_eq Real.sqrt hrect (le_refl 2)
    (le_refl 1) (by rw [hcost 0 (by omega)]; exact zero_le_sentinel)
  have ha1 : a = 1 := by
    by_contra hne
    have h0 : a = 0 := by omega
    have := hlast 1 (by omega) (by omega)
    rw [h0, hcost 0 (by omega), hcost 1 (by omega)] at this
    exact lt_irrefl _ this
  subst ha1
  refine ⟨by rw [hfind]; rfl, ?_⟩
  intro c hc
  simp only [specCost]
  rw [hE 0 (by omega), hE c hc]

/-- C15, as the code does it: on a rectangular grid of width at least 2 and of 1 to
`2 ^ 53` rows, let `dp` be the table that the forward pass of `FindVerticalSeam` has
filled.  The last entry of the returned seam is the largest column index among the
columns minimising `dp[c][height - 1]`: its entry is at most the entry of every
column, and strictly less than the entry of every column to its right (second
part).  Only comparisons of the entries of `dp` are involved: the anchor scan finds
the last minimal column of the last row of every table, whatever its entries, as
long as the first one does not exceed the start value `(double)INT64_MAX` (first
part). -/
theorem FindVerticalSeam_anchor_is_last_minimum (img : Image) (w h : Nat)
    (hrect : Rect img.m_table w h) (hw : 2 ≤ w) (hh : 1 ≤ h) (hsize : h ≤ 2 ^ 53) :
    (∀ (dp : List (List ℝ)) (v0 : ℝ), Rect dp w h → rd dp 0 (h - 1) = some v0 →
      v0 ≤ INT64_MAX →
      ∃ va a, forLoop (anchorStep h dp) w 0 (INT64_MAX, none) = some (va, some a) ∧
        a < w ∧ rd dp a (h - 1) = some va ∧
        (∀ c, c < w → ∃ vc, rd dp c (h - 1) = some vc ∧ va ≤ vc) ∧
        ∀ c, a < c → c < w → ∃ vc, rd dp c (h - 1) = some vc ∧ va < vc) ∧
    ∃ dp0 dp s,
      forLoop (firstRowStep Real.sqrt img) w 0
          (List.replicate w (List.replicate h (0 : ℝ))) = some dp0 ∧
      forLoop (rowStep Real.sqrt img w) (h - 1) 1 dp0 = some dp ∧
      FindVerticalSeam Real.sqrt img = some s ∧
      s.getD (h - 1) 0 < w ∧
      ∃ va, rd dp (s.getD (h - 1) 0) (h - 1) = some va ∧
        (∀ c, c < w → ∃ vc, rd dp c (h - 1) = some vc ∧ va ≤ vc) ∧
        ∀ c, s.getD (h - 1) 0 < c → c < w → ∃ vc, rd dp c (h - 1) = some vc ∧ va < vc := by
  refine ⟨?_, ?_⟩
  · intro dp v0 hdp hv0 hle
    have hrd : ∀ c, c < w → rd dp c (szSub h 1) = some ((rd dp c (h - 1)).getD 0) := by
      intro c hc
      obtain ⟨v, hv⟩ := rd_inb hdp hc (by omega : h - 1 < h)
      rw [szSub_of_le hh, hv]
      rfl
    obtain ⟨va, a, hscan, haw, hda, hmin, hlast⟩ := anchor_scan (h := h) dp
      (fun c => (rd dp c (h - 1)).getD 0) INT64_MAX (by omega : 1 ≤ w) hrd
      (by simp only [hv0, Option.getD_some]; exact hle)
    have hval : ∀ c, c < w → rd dp c (h - 1) = some ((rd dp c (h - 1)).getD 0) := by
      intro c hc
      obtain ⟨v, hv⟩ := rd_inb hdp hc (by omega : h - 1 < h)
      rw [hv]
      rfl
    refine ⟨va, a, hscan, haw, ?_, ?_, ?_⟩
    · rw [← hda]; exact hval a haw
    · intro c hc
      exact ⟨_, hval c hc, hmin c hc⟩
    · intro c h1 h2
      exact ⟨_, hval c h2, hlast c h1 h2⟩
  · obtain ⟨dp0, dp, h0, hl, _, hall⟩ := forward_pass Real.sqrt hrect hw hh
    obtain ⟨a, haw, hmin, hlast, hfind⟩ := FindVerticalSeam_eq Real.sqrt hrect hw hh
      (cost_le_sentinel hrect hw hh hsize 0 (by omega))
    obtain ⟨hend, _, _⟩ := traceBack_getD (energyAt Real.sqrt img) w (h - 1) a []
    refine ⟨dp0, dp, _, h0, hl, hfind, ?_, cost (energyAt Real.sqrt img) w (h - 1) a,
      ?_, ?_, ?_⟩
    · rw [hend]; exact haw
    · rw [hend]; exact hall (h - 1) (by omega) a haw
    · intro c hc
      exact ⟨_, hall (h - 1) (by omega) c hc, hmin c hc⟩
    · intro c h1 h2
      rw [hend] at h1
      exact ⟨_, hall (h - 1) (by omega) c h2, hlast c h1 h2⟩

/-- The anchor theorem at the grid of width 2 and height 1, where both columns tie. -/
theorem FindVerticalSeam_anchor_is_last_minimum_witness :
    Rect grid2x1.m_table 2 1 ∧
    ((∀ (dp : List (List ℝ)) (v0 : ℝ), Rect dp 2 1 → rd dp 0 (1 - 1) = some v0 →
      v0 ≤ INT64_MAX →
      ∃ va a, forLoop (anchorStep 1 dp) 2 0 (INT64_MAX, none) = some (va, some a) ∧
        a < 2 ∧ rd dp a (1 - 1) = some va ∧
        (∀ c, c < 2 → ∃ vc, rd dp c (1 - 1) = some vc ∧ va ≤ vc) ∧
        ∀ c, a < c → c < 2 → ∃ vc, rd dp c (1 - 1) = some vc ∧ va < vc) ∧
    ∃ dp0 dp s,
      forLoop (firstRowStep Real.sqrt grid2x1) 2 0
          (List.replicate 2 (List.replicate 1 (0 : ℝ))) = some dp0 ∧
      forLoop (rowStep Real.sqrt grid2x1 2) (1 - 1) 1 dp0 = some dp ∧
      FindVerticalSeam Real.sqrt grid2x1 = some s ∧
      s.getD (1 - 1) 0 < 2 ∧
      ∃ va, rd dp (s.getD (1 - 1) 0) (1 - 1) = some va ∧
        (∀ c, c < 2 → ∃ vc, rd dp c (1 - 1) = some vc ∧ va ≤ vc) ∧
        ∀ c, s.getD (1 - 1) 0 < c → c < 2 → ∃ vc, rd dp c (1 - 1) = some vc ∧ va < vc) :=
  ⟨⟨rfl, by decide⟩,
    FindVerticalSeam_anchor_is_last_minimum grid2x1 2 1 ⟨rfl, by decide⟩ (by decide)
      (by decide) (by norm_num)⟩

/-- C16, counterexample: on the 2 x 2 grid `FindVerticalSeam` returns `[0, 1]`: from
column `c = 1` of row 1 the backtrace moves to column 0, although the straight-up
cost `cost[1][0]` equals `cost[1][1] - Energy(1, 1)`. -/
theorem FindVerticalSeam_backtrace_prefers_left :
    FindVerticalSeam Real.sqrt grid2x2 = some [0, 1] ∧
    specCost (energyAt Real.sqrt grid2x2) 2 1 0 =
      specCost (energyAt Real.sqrt grid2x2) 2 1 1 - energyAt Real.sqrt grid2x2 1 1 := by
  have hrect : Rect grid2x2.m_table 2 2 := ⟨rfl, by decide⟩
  have hE : ∀ c r, c < 2 → r < 2 → energyAt Real.sqrt grid2x2 c r = 0 := fun c r hc hr =>
    energyAt_small hrect (le_refl 2) (le_refl 2) hc hr
  have hc0 : ∀ c, c < 2 → cost (energyAt Real.sqrt grid2x2) 2 0 c = 0 := by
    intro c hc
    simpa [cost] using hE c 0 hc (by omega)
  have hc1 : ∀ c, c < 2 → cost (energyAt Real.sqrt grid2x2) 2 1 c = 0 := by
    intro c hc
    have : c = 0 ∨ c = 1 := by omega
    rcases this with rfl | rfl
    · rw [cost_succ_zero, hc0 0 (by omega), hc0 1 (by omega), hE 0 1 (by omega) (by omega)]
      simp
    · have := cost_succ_last (energyAt Real.sqrt grid2x2) (le_refl 2) 0
      simp only [Nat.zero_add] at this
      have e1 : (2 : Nat) - 1 = 1 := rfl
      have e2 : (2 : Nat) - 2 = 0 := rfl
      rw [e1, e2] at this
      rw [this, hc0 0 (by omega), hc0 1 (by omega), hE 1 1 (by omega) (by omega)]
      simp
  obtain ⟨a, ha, _, hlast, hfind⟩ := FindVerticalSeam_eq Real.sqrt hrect (le_refl 2)
    (by omega : 1 ≤ 2) (by
      have e : (2 : Nat) - 1 = 1 := rfl
      rw [e, hc1 0 (by omega)]
      exact zero_le_sentinel)
  have e21 : (2 : Nat) - 1 = 1 := rfl
  rw [e21] at hlast hfind
  have ha1 : a = 1 := by
    by_contra hne
    have h0 : a = 0 := by omega
    have := hlast 1 (by omega) (by omega)
    rw [h0, hc1 0 (by omega), hc1 1 (by omega)] at this
    exact lt_irrefl _ this
  subst ha1
  have hpred : predCol (energyAt Real.sqrt grid2x2) 2 0 1 = 0 := by
    unfold predCol
    simp only [Nat.zero_add]
    rw [hc1 1 (by omega), hE 1 1 (by omega) (by omega), hc0 0 (by omega)]
    simp
  refine ⟨?_, ?_⟩
  · rw [hfind]
    simp [traceBack, hpred]
  · rw [specCost_eq_cost _ (le_refl 2) _ _ (by omega : 1 < 2),
      specCost_eq_cost _ (le_refl 2) _ _ (by omega : 1 < 2), hc0 1 (by omega),
      hc1 1 (by omega), hE 1 1 (by omega) (by omega)]
    simp

/-- C16, as the code does it, with energies and cumulative costs taken as exact real
numbers: on a rectangular grid of width at least 2 and of 2 to `2 ^ 53` rows, for
every row `≥ 1` with `c = seam[row]` and `cur = cost[c][row] - Energy(c, row)`, the
predecessor `seam[row - 1]` is an in-range column among `c - 1`, `c`, `c + 1` whose
cost at `row - 1` equals `cur`, chosen with the preference order left `c - 1` first,
then straight-up `c`, then right `c + 1`. -/
theorem FindVerticalSeam_backtrace_order (img : Image) (w h : Nat)
    (hrect : Rect img.m_table w h) (hw : 2 ≤ w) (hh : 2 ≤ h) (hsize : h ≤ 2 ^ 53) :
    ∃ s, FindVerticalSeam Real.sqrt img = some s ∧
      ∀ row, 1 ≤ row → row < h →
        s.getD (row - 1) 0 < w ∧
        specCost (energyAt Real.sqrt img) w (s.getD (row - 1) 0) (row - 1) =
          specCost (energyAt Real.sqrt img) w (s.getD row 0) row
            - energyAt Real.sqrt img (s.getD row 0) row ∧
        ((0 < s.getD row 0 ∧
            specCost (energyAt Real.sqrt img) w (s.getD row 0 - 1) (row - 1) =
              specCost (energyAt Real.sqrt img) w (s.getD row 0) row
                - energyAt Real.sqrt img (s.getD row 0) row) →
          s.getD (row - 1) 0 = s.getD row 0 - 1) ∧
        (¬ (0 < s.getD row 0 ∧
            specCost (energyAt Real.sqrt img) w (s.getD row 0 - 1) (row - 1) =
              specCost (energyAt Real.sqrt img) w (s.getD row 0) row
                - energyAt Real.sqrt img (s.getD row 0) row) →
          (specCost (energyAt Real.sqrt img) w (s.getD row 0) (row - 1) =
              specCost (energyAt Real.sqrt img) w (s.getD row 0) row
                - energyAt Real.sqrt img (s.getD row 0) row →
            s.getD (row - 1) 0 = s.getD row 0) ∧
          (specCost (energyAt Real.sqrt img) w (s.getD row 0) (row - 1) ≠
              specCost (energyAt Real.sqrt img) w (s.getD row 0) row
                - energyAt Real.sqrt img (s.getD row 0) row →
            s.getD (row - 1) 0 = s.getD row 0 + 1)) := by
  obtain ⟨a, haw, _, _, hfind⟩ := FindVerticalSeam_eq Real.sqrt hrect hw (by omega)
    (cost_le_sentinel hrect hw (by omega) hsize 0 (by omega))
  have hseam := traceBack_isSeam (energyAt Real.sqrt img) (w := w) (by omega : 1 ≤ h) haw
  refine ⟨_, hfind, ?_⟩
  intro row h1 h2
  obtain ⟨k, rfl⟩ : ∃ k, row = k + 1 := ⟨row - 1, by omega⟩
  obtain ⟨_, _, hpred⟩ := traceBack_getD (energyAt Real.sqrt img) w (h - 1) a []
  have hc := hseam.2.1 (k + 1) h2
  have hp := hseam.2.1 k (by omega)
  have hk := hpred k (by omega)
  have hcostp := predCol_cost (energyAt Real.sqrt img) (k := k) hw hc
  rw [← hk] at hcostp
  simp only [Nat.add_sub_cancel]
  generalize (traceBack (energyAt Real.sqrt img) w (h - 1) a []).getD (k + 1) 0 = c
    at hc hk hcostp ⊢
  generalize (traceBack (energyAt Real.sqrt img) w (h - 1) a []).getD k 0 = p
    at hp hk hcostp ⊢
  have hcur : specCost (energyAt Real.sqrt img) w p k =
      specCost (energyAt Real.sqrt img) w c (k + 1) - energyAt Real.sqrt img c (k + 1) := by
    rw [specCost_eq_cost _ hw _ _ hp, specCost_eq_cost _ hw _ _ hc, ← hcostp]
    ring
  refine ⟨hp, hcur, ?_, ?_⟩
  · rintro ⟨hpos, hleft⟩
    rw [specCost_eq_cost _ hw _ _ (by omega : c - 1 < w), specCost_eq_cost _ hw _ _ hc]
      at hleft
    rw [hk]
    unfold predCol
    rw [if_pos ⟨by omega, hleft.symm⟩]
  · intro hnl
    have hnl' : ¬ (c ≠ 0 ∧ cost (energyAt Real.sqrt img) w (k + 1) c
        - energyAt Real.sqrt img c (k + 1) = cost (energyAt Real.sqrt img) w k (c - 1)) := by
      rintro ⟨hne, heq⟩
      apply hnl
      refine ⟨by omega, ?_⟩
      rw [specCost_eq_cost _ hw _ _ (by omega : c - 1 < w), specCost_eq_cost _ hw _ _ hc,
        heq]
    refine ⟨?_, ?_⟩
    · intro hst
      rw [specCost_eq_cost _ hw _ _ hc, specCost_eq_cost _ hw _ _ hc] at hst
      rw [hk]
      unfold predCol
      rw [if_neg hnl', if_neg (by
        rintro ⟨_, _, hne⟩
        exact hne hst.symm)]
    · intro hst
      by_contra hne
      have hpc : p = c := by
        have hp' : p = predCol (energyAt Real.sqrt img) w k c := hk
        unfold predCol at hp'
        rw [if_neg hnl'] at hp'
        split at hp'
        · exact absurd hp' hne
        · exact hp'
      rw [hpc] at hcur
      exact hst hcur

/-- The backtrace-order theorem at the 2 x 2 grid, where all costs tie. -/
theorem FindVerticalSeam_backtrace_order_witness :
    Rect grid2x2.m_table 2 2 ∧
    ∃ s, FindVerticalSeam Real.sqrt grid2x2 = some s ∧
      ∀ row, 1 ≤ row → row < 2 →
        s.getD (row - 1) 0 < 2 ∧
        specCost (energyAt Real.sqrt grid2x2) 2 (s.getD (row - 1) 0) (row - 1) =
          specCost (energyAt Real.sqrt grid2x2) 2 (s.getD row 0) row
            - energyAt Real.sqrt grid2x2 (s.getD row 0) row ∧
        ((0 < s.getD row 0 ∧
            specCost (energyAt Real.sqrt grid2x2) 2 (s.getD row 0 - 1) (row - 1) =
              specCost (energyAt Real.sqrt grid2x2) 2 (s.getD row 0) row
                - energyAt Real.sqrt grid2x2 (s.getD row 0) row) →
          s.getD (row - 1) 0 = s.getD row 0 - 1) ∧
        (¬ (0 < s.getD row 0 ∧
            specCost (energyAt Real.sqrt grid2x2) 2 (s.getD row 0 - 1) (row - 1) =
              specCost (energyAt Real.sqrt grid2x2) 2 (s.getD row 0) row
                - energyAt Real.sqrt grid2x2 (s.getD row 0) row) →
          (specCost (energyAt Real.sqrt grid2x2) 2 (s.getD row 0) (row - 1) =
              specCost (energyAt Real.sqrt grid2x2) 2 (s.getD row 0) row
                - energyAt Real.sqrt grid2x2 (s.getD row 0) row →
            s.getD (row - 1) 0 = s.getD row 0) ∧
          (specCost (energyAt Real.sqrt grid2x2) 2 (s.getD row 0) (row - 1) ≠
              specCost (energyAt Real.sqrt grid2x2) 2 (s.getD row 0) row
                - energyAt Real.sqrt grid2x2 (s.getD row 0) row →
            s.getD (row - 1) 0 = s.getD row 0 + 1)) :=
  ⟨⟨rfl, by decide⟩,
    FindVerticalSeam_backtrace_order grid2x2 2 2 ⟨rfl, by decide⟩ (by decide) (by decide)
      (by norm_num)⟩

/-- C18: on a rectangular grid of width at most 2, at every in-range `(c, r)`, the
left and right wrap-around neighbours are the same pixel, so `GetPixelEnergy(c, r)`
is `sqrt(Delta(up, down))`; if moreover the height is at most 2 the energy is 0. -/
theorem GetPixelEnergy_narrow_grid (img : Image) (w h c r : Nat)
    (hrect : Rect img.m_table w h) (hw : w ≤ 2) (hc : c < w) (hr : r < h) :
    GetPixel img ((c + w - 1) % w) r = GetPixel img ((c + 1) % w) r ∧
    (∃ up down,
      GetPixel img c ((r + h - 1) % h) = some up ∧
      GetPixel img c ((r + 1) % h) = some down ∧
      GetPixelEnergy Real.sqrt img c r = some (Real.sqrt (Delta up down))) ∧
    (h ≤ 2 → GetPixelEnergy Real.sqrt img c r = some 0) := by
  have hwrap := wrap_eq_of_le_two hw hc
  have hh : 0 < h := by omega
  refine ⟨by rw [hwrap], ⟨_, _, GetPixel_inb hrect hc (Nat.mod_lt _ hh),
    GetPixel_inb hrect hc (Nat.mod_lt _ hh), ?_⟩, ?_⟩
  · rw [GetPixelEnergy_eq Real.sqrt hrect hc hr, hwrap, Delta_self, zero_add]
  · intro hh2
    rw [GetPixelEnergy_inb Real.sqrt hrect hc hr, energyAt_small hrect hw hh2 hc hr]

/-- The narrow-grid theorem at the pixel `(1, 1)` of the 2 x 2 grid. -/
theorem GetPixelEnergy_narrow_grid_witness :
    Rect grid2x2.m_table 2 2 ∧
    (GetPixel grid2x2 ((1 + 2 - 1) % 2) 1 = GetPixel grid2x2 ((1 + 1) % 2) 1 ∧
    (∃ up down,
      GetPixel grid2x2 1 ((1 + 2 - 1) % 2) = some up ∧
      GetPixel grid2x2 1 ((1 + 1) % 2) = some down ∧
      GetPixelEnergy Real.sqrt grid2x2 1 1 = some (Real.sqrt (Delta up down))) ∧
    (2 ≤ 2 → GetPixelEnergy Real.sqrt grid2x2 1 1 = some 0)) :=
  ⟨⟨rfl, by decide⟩,
    GetPixelEnergy_narrow_grid grid2x2 2 2 1 1 ⟨rfl, by decide⟩ (by decide) (by decide)
      (by decide)⟩

/-- On the grid of width 3 and height 2 the forward pass of `FindSeam(false)` reads
`dp[0][2]`, outside the column. -/
theorem FindSeam_grid3x2 : FindSeam Real.sqrt grid3x2 false = none := by
  simp [FindSeam, GetImageHeight, GetImageWidth, grid3x2, forLoop, seamInitStep, seamRowStep,
    seamInnerStep, GetPixelEnergy, GetPixel, rd, wr, szSub]

/-- The energies of the striped grid, as `GetPixelEnergy` returns them. -/
theorem GetPixelEnergy_stripes {h r : Nat} (hr : r < h) :
    GetPixelEnergy Real.sqrt (stripes h) 0 r = some (Real.sqrt 195075) ∧
    GetPixelEnergy Real.sqrt (stripes h) 1 r = some 0 ∧
    GetPixelEnergy Real.sqrt (stripes h) 2 r = some (Real.sqrt 195075) := by
  obtain ⟨a, b, c⟩ := energyAt_stripes hr
  refine ⟨?_, ?_, ?_⟩
  · rw [GetPixelEnergy_inb Real.sqrt (rect_stripes h) (by omega : 0 < 3) hr, a]
  · rw [GetPixelEnergy_inb Real.sqrt (rect_stripes h) (by omega : 1 < 3) hr, b]
  · rw [GetPixelEnergy_inb Real.sqrt (rect_stripes h) (by omega : 2 < 3) hr, c]

/-- `FindSeam(false)` on the 3 x 3 striped grid, traced loop by loop. -/
theorem FindSeam_stripes : FindSeam Real.sqrt (stripes 3) false = some [1, 1, 2] := by
  have hH : GetImageHeight (stripes 3) = some 3 := rfl
  have hWd : GetImageWidth (stripes 3) = 3 := rfl
  have hpos := sqrt_stripe_pos
  have hS : Real.sqrt 195075 ≤ (INT64_MAX : ℝ) := by
    rw [Real.sqrt_le_iff]
    unfold INT64_MAX
    norm_num
  have e00 := (GetPixelEnergy_stripes (h := 3) (r := 0) (by omega)).1
  have e10 := (GetPixelEnergy_stripes (h := 3) (r := 0) (by omega)).2.1
  have e11 := (GetPixelEnergy_stripes (h := 3) (r := 1) (by omega)).2.1
  have e12 := (GetPixelEnergy_stripes (h := 3) (r := 2) (by omega)).2.1
  have e20 := (GetPixelEnergy_stripes (h := 3) (r := 0) (by omega)).2.2
  have e21 := (GetPixelEnergy_stripes (h := 3) (r := 1) (by omega)).2.2
  have e22 := (GetPixelEnergy_stripes (h := 3) (r := 2) (by omega)).2.2
  generalize Real.sqrt 195075 = W at *
  have m1 : min W 0 = 0 := min_eq_right hpos.le
  have m3 : min (INT64_MAX : ℝ) W = W := min_eq_right hS
  have n1 : W ≠ 0 := ne_of_gt hpos
  have n2 : (0 : ℝ) ≠ W := ne_of_lt hpos
  have s1 : forLoop (seamInitStep Real.sqrt (stripes 3) false) 3 0
      (List.replicate 3 (List.replicate 3 (0 : ℝ))) = some [[W, 0, 0], [0, 0, 0], [W, 0, 0]] := by
    simp [forLoop, seamInitStep, e00, e10, e20, wr, List.replicate]
  have s2 : seamRowStep Real.sqrt (stripes 3) 3 3 1 [[W, 0, 0], [0, 0, 0], [W, 0, 0]]
      = some [[W, 0, 0], [0, 0, 0], [W, 0, 0]] := by
    simp [seamRowStep, seamInnerStep, forLoop, rd, wr, szSub, e10, e11, e12, m1, hpos.le]
  have s3 : seamRowStep Real.sqrt (stripes 3) 3 3 2 [[W, 0, 0], [0, 0, 0], [W, 0, 0]]
      = some [[W, 0, 0], [0, 0, 0], [W, W, W]] := by
    simp [seamRowStep, seamInnerStep, forLoop, rd, wr, szSub, e20, e21, e22]
  have s4 : forLoop (seamAnchorStep 3 [[W, 0, 0], [0, 0, 0], [W, W, W]]) 3 0
      ((INT64_MAX : ℝ), none) = some (W, some 2) := by
    simp [forLoop, seamAnchorStep, rd, szSub, m3]
  have s5 : seamTraceStep Real.sqrt (stripes 3) 3 [[W, 0, 0], [0, 0, 0], [W, W, W]] 2 (2, [])
      = some (1, [2]) := by
    simp [seamTraceStep, seamLeftTest, rd, e22]
  have s6 : seamTraceStep Real.sqrt (stripes 3) 3 [[W, 0, 0], [0, 0, 0], [W, W, W]] 1 (1, [2])
      = some (1, [1, 2]) := by
    simp [seamTraceStep, seamLeftTest, seamRightTest, rd, szSub, e11, n2]
  have e31 : (3 : Nat) - 1 = 2 := rfl
  have hsz : szSub 3 1 = 2 := rfl
  simp only [FindSeam, hH, hWd, Option.bind_eq_bind, Option.some_bind, Bool.false_eq_true,
    if_false, s1, e31, hsz]
  rw [show forLoop (seamRowStep Real.sqrt (stripes 3) 3 3) 2 1 [[W, 0, 0], [0, 0, 0], [W, 0, 0]]
      = some [[W, 0, 0], [0, 0, 0], [W, W, W]] by
    rw [forLoop, s2]
    simp only [forLoop, s3]]
  simp only [Option.some_bind, s4]
  rw [show downLoop (seamTraceStep Real.sqrt (stripes 3) 3 [[W, 0, 0], [0, 0, 0], [W, W, W]]) 2
      (2, []) = some (1, [1, 2]) by
    rw [downLoop, s5]
    simp only [downLoop, s6]]
  simp [BuildSeam, BuildSeam.loop]

section GenericSearchFacts

/-- On the striped grid `FindVerticalSeam` returns the middle column in every row. -/
theorem FindVerticalSeam_stripes_eq (h : Nat) (hh : 1 ≤ h) :
    FindVerticalSeam Real.sqrt (stripes h) = some (List.replicate h 1) := by
  have hrect := rect_stripes h
  obtain ⟨c0, c1, c2⟩ := cost_stripes (h := h) (h - 1) (by omega)
  have hpos := sqrt_stripe_pos
  have hS : cost (energyAt Real.sqrt (stripes h)) 3 (h - 1) 0 ≤ (INT64_MAX : ℝ) := by
    rw [c0, Real.sqrt_le_iff]
    unfold INT64_MAX
    norm_num
  obtain ⟨a, ha, hmin, _, hfind⟩ := FindVerticalSeam_eq Real.sqrt hrect (by omega) hh hS
  have ha1 : a = 1 := by
    have h1 := hmin 1 (by omega)
    rw [c1] at h1
    have : a = 0 ∨ a = 1 ∨ a = 2 := by omega
    rcases this with rfl | rfl | rfl
    · rw [c0] at h1; linarith
    · rfl
    · rw [c2] at h1; linarith
  subst ha1
  rw [hfind, traceBack_stripes (h - 1) (by omega)]
  have : h - 1 + 1 = h := by omega
  simp [this]

end GenericSearchFacts

/-- C19, at two failing inputs: on the grid of width 3 and height 2,
`FindSeam(false)` reads the cost table out of range (`dp[0][2]`, a row the table does
not have); on the 3 x 3 striped grid, where no access is out of range, it returns
`[1, 1, 2]` while `FindVerticalSeam` returns `[1, 1, 1]`. -/
theorem FindSeam_differs_from_FindVerticalSeam :
    FindSeam Real.sqrt grid3x2 false = none ∧
    FindSeam Real.sqrt (stripes 3) false = some [1, 1, 2] ∧
    FindVerticalSeam Real.sqrt (stripes 3) = some [1, 1, 1] :=
  ⟨FindSeam_grid3x2, FindSeam_stripes, FindVerticalSeam_stripes_eq 3 (by decide)⟩

section HorizontalRemoval

theorem set_getElem?_same {β : Type} {t : List β} {i : Nat} {x : β} (h : t[i]? = some x) :
    t.set i x = t := by
  apply List.ext_getElem?
  intro k
  by_cases hk : i = k
  · subst hk
    have hlt : i < t.length := by
      by_contra hge
      rw [List.getElem?_eq_none (by omega)] at h
      exact absurd h (by simp)
    simp [List.getElem?_set, hlt, h]
  · simp [List.getElem?_set, hk]

theorem lt_length_of_getElem? {β : Type} {t : List β} {i : Nat} {x : β} (h : t[i]? = some x) :
    i < t.length := by
  by_contra hge
  rw [List.getElem?_eq_none (by omega)] at h
  exact absurd h (by simp)

/-- The inner loop of `RemoveSeam` in the horizontal case, `n` iterations from row `s`
on column `i`: the entries `s .. s + n - 1` of the column are replaced by their
successors, nothing else changes. -/
theorem shift_horizontal {t : List (List Pixel)} {i : Nat} {col : List Pixel}
    (hcol : t[i]? = some col) (s n : Nat) (hn : n = 0 ∨ s + n < col.length) :
    ∃ col', forLoop (shiftStep true i) n s ⟨t⟩ = some ⟨t.set i col'⟩ ∧
      col'.length = col.length ∧
      ∀ r : Nat, col'[r]? = if s ≤ r ∧ r < s + n then col[r + 1]? else col[r]? := by
  have hit := lt_length_of_getElem? hcol
  obtain ⟨g, hl, col', hg, hlen, hrd⟩ := forLoop_inv (shiftStep true i)
    (fun j (g : Image) => ∃ col', g = ⟨t.set i col'⟩ ∧ col'.length = col.length ∧
      ∀ r : Nat, col'[r]? = if s ≤ r ∧ r < j then col[r + 1]? else col[r]?)
    n s ⟨t⟩
    (by
      intro j g hj1 hj2 ⟨col', hg, hlen, hrd⟩
      have hj : j + 1 < col.length := by omega
      subst hg
      have hget : (t.set i col')[i]? = some col' := by
        simp [List.getElem?_set, hit]
      have hv : col'[j + 1]? = some (col[j + 1]) := by
        rw [hrd]
        have : ¬ (s ≤ j + 1 ∧ j + 1 < j) := by omega
        rw [if_neg this, List.getElem?_eq_getElem hj]
      refine ⟨⟨t.set i (col'.set j (col[j + 1]))⟩, ?_, col'.set j (col[j + 1]), rfl,
        by simp [hlen], ?_⟩
      · have hjl : j < col'.length := by omega
        simp [shiftStep, rd, wr, hget, hv, hjl]
      · intro r
        by_cases hrj : r = j
        · subst hrj
          have h1 : s ≤ r ∧ r < r + 1 := by omega
          have hjl : r < col'.length := by omega
          rw [if_pos h1, List.getElem?_eq_getElem hj]
          simp [List.getElem?_set, hjl]
        · have hne : j ≠ r := fun h => hrj h.symm
          rw [List.getElem?_set_ne hne, hrd]
          by_cases h2 : s ≤ r ∧ r < j
          · have h3 : s ≤ r ∧ r < j + 1 := by omega
            rw [if_pos h2, if_pos h3]
          · have h3 : ¬ (s ≤ r ∧ r < j + 1) := by omega
            rw [if_neg h2, if_neg h3])
    ⟨col, by rw [set_getElem?_same hcol], rfl, by
      intro r
      have : ¬ (s ≤ r ∧ r < s) := by omega
      rw [if_neg this]⟩
  subst hg
  exact ⟨col', hl, hlen, hrd⟩

theorem getElem?_dropLast_lt {β : Type} (l : List β) (r : Nat) (hr : r + 1 < l.length) :
    l.dropLast[r]? = l[r]? := by
  rw [List.dropLast_eq_take, List.getElem?_take]
  simp
  omega

end HorizontalRemoval

section HorizontalLoop

/-- One iteration of the outer loop of `RemoveSeam` in the horizontal case, when the
shift bound `GetImageHeight()` currently reads `b`: column `i` (of size `h`) has its
entries `s .. b - 2` replaced by their successors and then loses its last entry. -/
theorem removeStep_horizontal (seam : List Nat) {g : Image} {i h b : Nat} {col : List Pixel}
    (hcol : g.m_table[i]? = some col) (hlen : col.length = h) (hh : 2 ≤ h)
    (hb : GetImageHeight g = some b) (hb1 : 1 ≤ b) (hbh : b ≤ h) (hi : i < seam.length) :
    ∃ col', removeStep seam true i g = some ⟨g.m_table.set i col'⟩ ∧
      col'.length = h - 1 ∧
      ∀ r : Nat, r < h - 1 → col'[r]? =
        if seam.getD i 0 ≤ r ∧ r < b - 1 then col[r + 1]? else col[r]? := by
  have hit := lt_length_of_getElem? hcol
  obtain ⟨c1, hl, hc1, hrd⟩ := shift_horizontal hcol (seam.getD i 0) (b - 1 - seam.getD i 0)
    (by omega)
  refine ⟨c1.dropLast, ?_, by simp [hc1, hlen], ?_⟩
  · have hget : (g.m_table.set i c1)[i]? = some c1 := by
      simp [List.getElem?_set, hit]
    have hne : ¬ (c1.length = 0) := by omega
    simp only [removeStep, getElem?_eq_getD hi, hb, szSub_of_le hb1, hl, hget, popBack, hne,
      Option.bind_eq_bind, Option.some_bind, if_true, if_false, List.set_set]
  · intro r hr
    rw [getElem?_dropLast_lt c1 r (by omega), hrd]
    by_cases h1 : seam.getD i 0 ≤ r ∧ r < b - 1
    · have h2 : seam.getD i 0 ≤ r ∧ r < seam.getD i 0 + (b - 1 - seam.getD i 0) := by omega
      rw [if_pos h1, if_pos h2]
    · have h2 : ¬ (seam.getD i 0 ≤ r ∧ r < seam.getD i 0 + (b - 1 - seam.getD i 0)) := by
        omega
      rw [if_neg h1, if_neg h2]

theorem GetImageHeight_of_col {g : Image} {col : List Pixel} (h : g.m_table[0]? = some col) :
    GetImageHeight g = some col.length := by
  simp [GetImageHeight, h]

theorem rd_of_col {β : Type} {t : List (List β)} {c : Nat} {col : List β}
    (h : t[c]? = some col) (r : Nat) : rd t c r = col[r]? := by
  simp [rd, h]

/-- What `RemoveSeam` does in the horizontal case on a rectangular grid of height at
least 2 with a seam of in-range rows: every column loses one entry, column 0 loses
its seam entry, and in every column the entries above the seam row are unchanged. -/
theorem RemoveSeam_horizontal {img : Image} {w h : Nat} (seam : List Nat)
    (hrect : Rect img.m_table w h) (hh : 2 ≤ h) (hlen : w ≤ seam.length)
    (hseam : ∀ c, c < w → seam.getD c 0 < h) :
    ∃ img', RemoveSeam img seam true = some img' ∧ Rect img'.m_table w (h - 1) ∧
      (∀ c r, c < w → r < seam.getD c 0 → rd img'.m_table c r = rd img.m_table c r) ∧
      (∀ r, r < h - 1 →
        rd img'.m_table 0 r = rd img.m_table 0 (if r < seam.getD 0 0 then r else r + 1)) := by
  obtain ⟨hw, hcols⟩ := hrect
  obtain ⟨g, hl, hgl, hrest, hdone, hkeep, hzero⟩ := forLoop_inv (removeStep seam true)
    (fun i (g : Image) => g.m_table.length = w ∧
      (∀ c : Nat, i ≤ c → g.m_table[c]? = img.m_table[c]?) ∧
      (∀ c : Nat, c < i → ∃ col, g.m_table[c]? = some col ∧ col.length = h - 1) ∧
      (∀ c r, c < i → r < seam.getD c 0 → rd g.m_table c r = rd img.m_table c r) ∧
      (0 < i → ∀ r, r < h - 1 →
        rd g.m_table 0 r = rd img.m_table 0 (if r < seam.getD 0 0 then r else r + 1)))
    w 0 img
    (by
      intro i g _ hi2 ⟨hgl, hrest, hdone, hkeep, hzero⟩
      have hiw : i < w := by omega
      have hil : i < img.m_table.length := by omega
      have hcol0 : img.m_table[i]? = some (img.m_table[i]) := List.getElem?_eq_getElem hil
      have hcol : g.m_table[i]? = some (img.m_table[i]) := by
        rw [hrest i (le_refl i), hcol0]
      have hclen : (img.m_table[i]).length = h := hcols _ (List.getElem_mem _)
      have hs := hseam i hiw
      -- the value of `GetImageHeight()` at this iteration
      have hb : ∃ b, GetImageHeight g = some b ∧ 1 ≤ b ∧ b ≤ h ∧ (i = 0 → b = h) := by
        by_cases h0 : i = 0
        · subst h0
          exact ⟨h, by rw [GetImageHeight_of_col hcol, hclen], by omega, le_refl h, fun _ => rfl⟩
        · obtain ⟨c0, hc0, hc0l⟩ := hdone 0 (by omega)
          exact ⟨h - 1, by rw [GetImageHeight_of_col hc0, hc0l], by omega, by omega,
            fun h => absurd h h0⟩
      obtain ⟨b, hbe, hb1, hbh, hb0⟩ := hb
      obtain ⟨col', hstep, hl', hrd'⟩ := removeStep_horizontal seam hcol hclen hh hbe
        hb1 hbh (by omega)
      have hgi : i < g.m_table.length := by omega
      refine ⟨⟨g.m_table.set i col'⟩, hstep, by simpa using hgl, ?_, ?_, ?_, ?_⟩
      · intro c hc
        have hne : i ≠ c := by omega
        show (g.m_table.set i col')[c]? = _
        rw [List.getElem?_set_ne hne]
        exact hrest c (by omega)
      · intro c hc
        by_cases hci : c = i
        · subst hci
          exact ⟨col', by simp [List.getElem?_set, hgi], hl'⟩
        · have hne : i ≠ c := fun h => hci h.symm
          obtain ⟨cc, h1, h2⟩ := hdone c (by omega)
          exact ⟨cc, by
            show (g.m_table.set i col')[c]? = _
            rw [List.getElem?_set_ne hne]; exact h1, h2⟩
      · intro c r hc hr
        by_cases hci : c = i
        · subst hci
          have hget : (g.m_table.set c col')[c]? = some col' := by
            simp [List.getElem?_set, hgi]
          show rd (g.m_table.set c col') c r = _
          rw [rd_of_col hget, rd_of_col hcol0, hrd' r (by omega)]
          have : ¬ (seam.getD c 0 ≤ r ∧ r < b - 1) := by omega
          rw [if_neg this]
        · have hne : i ≠ c := fun h => hci h.symm
          have : rd (g.m_table.set i col') c r = rd g.m_table c r := by
            simp [rd, List.getElem?_set_ne hne]
          show rd (g.m_table.set i col') c r = _
          rw [this]
          exact hkeep c r (by omega) hr
      · intro _ r hr
        by_cases h0 : i = 0
        · subst h0
          have hget : (g.m_table.set 0 col')[0]? = some col' := by
            simp [List.getElem?_set, hgi]
          have hbv := hb0 rfl
          subst hbv
          show rd (g.m_table.set 0 col') 0 r = _
          rw [rd_of_col hget, hrd' r hr, rd_of_col hcol0]
          by_cases h1 : r < seam.getD 0 0
          · have : ¬ (seam.getD 0 0 ≤ r ∧ r < b - 1) := by omega
            rw [if_neg this, if_pos h1]
          · have : seam.getD 0 0 ≤ r ∧ r < b - 1 := by omega
            rw [if_pos this, if_neg h1]
        · have hne : i ≠ 0 := h0
          have : rd (g.m_table.set i col') 0 r = rd g.m_table 0 r := by
            simp [rd, List.getElem?_set_ne hne]
          show rd (g.m_table.set i col') 0 r = _
          rw [this]
          exact hzero (by omega) r hr)
    ⟨hw, fun c _ => rfl, fun c hc => by omega, fun c r hc => by omega, fun h0 => by omega⟩
  rw [Nat.zero_add] at hdone hkeep hzero
  refine ⟨g, ?_, ⟨hgl, ?_⟩, ?_, ?_⟩
  · have hwd : GetImageWidth img = w := hw
    simp only [RemoveSeam, hwd, hl, Option.bind_eq_bind, Option.some_bind, if_true,
      Bool.not_true, Bool.false_eq_true, if_false]
  · intro col hmem
    obtain ⟨c, hc, hcc⟩ := List.getElem_of_mem hmem
    obtain ⟨cc, h1, h2⟩ := hdone c (by omega)
    rw [List.getElem?_eq_getElem hc, hcc] at h1
    simp only [Option.some.injEq] at h1
    rw [h1]; exact h2
  · intro c r hc hr
    exact hkeep c r hc hr
  · intro r hr
    by_cases hw0 : 0 < w
    · exact hzero hw0 r hr
    · have hwz : w = 0 := by omega
      have e1 : g.m_table = [] := List.length_eq_zero.1 (by omega)
      have e2 : img.m_table = [] := List.length_eq_zero.1 (by omega)
      simp [rd, e1, e2]

end HorizontalLoop

/-- C17: on a rectangular grid of height at least 2, with a seam of length `width`
whose entries are in `[0, height)`, `RemoveHorizontalSeam` performs no out-of-range
access and leaves a rectangular grid of the same width whose columns have length
`height - 1`; column 0 is the original column 0 without its entry at row `seam[0]`,
and in every column `c` the pixels at the rows `r < seam[c]` are unchanged. -/
theorem RemoveHorizontalSeam_frame (img : Image) (w h : Nat) (seam : List Nat)
    (hrect : Rect img.m_table w h) (hh : 2 ≤ h) (hlen : seam.length = w)
    (hseam : ∀ c, c < w → seam.getD c 0 < h) :
    ∃ img', RemoveHorizontalSeam img seam = some img' ∧ Rect img'.m_table w (h - 1) ∧
      (∀ r, r < h - 1 →
        GetPixel img' 0 r = GetPixel img 0 (if r < seam.getD 0 0 then r else r + 1)) ∧
      ∀ c r, c < w → r < seam.getD c 0 → GetPixel img' c r = GetPixel img c r := by
  obtain ⟨img', h1, h2, h3, h4⟩ := RemoveSeam_horizontal seam hrect hh (by omega) hseam
  exact ⟨img', h1, h2, h4, h3⟩

/-- The horizontal frame theorem at the 2 x 2 grid with the seam `[0, 0]`. -/
theorem RemoveHorizontalSeam_frame_witness :
    Rect grid2x2.m_table 2 2 ∧
    ∃ img', RemoveHorizontalSeam grid2x2 [0, 0] = some img' ∧ Rect img'.m_table 2 (2 - 1) ∧
      (∀ r, r < 2 - 1 →
        GetPixel img' 0 r = GetPixel grid2x2 0 (if r < [0, 0].getD 0 0 then r else r + 1)) ∧
      ∀ c r, c < 2 → r < [0, 0].getD c 0 → GetPixel img' c r = GetPixel grid2x2 c r :=
  ⟨⟨rfl, by decide⟩,
    RemoveHorizontalSeam_frame grid2x2 2 2 [0, 0] ⟨rfl, by decide⟩ (by decide) rfl
      (by decide)⟩

section UncheckedRemoval

/-- Two loop bodies that agree on the indices of the loop give the same loop. -/
theorem forLoop_congr {σ : Type} (f g : Nat → σ → Option σ) :
    ∀ (n a : Nat) (s : σ), (∀ i s, a ≤ i → i < a + n → f i s = g i s) →
      forLoop f n a s = forLoop g n a s := by
  intro n
  induction n with
  | zero => intro a s _; rfl
  | succ n ih =>
    intro a s h
    rw [forLoop, forLoop, h a s (le_refl a) (by omega)]
    cases g a s with
    | none => rfl
    | some s' => exact ih (a + 1) s' (fun i s hi1 hi2 => h i s (by omega) (by omega))

/-- A loop of `n + m` iterations is a loop of `n` iterations followed by one of
`m`. -/
theorem forLoop_add {σ : Type} (f : Nat → σ → Option σ) :
    ∀ (n m a : Nat) (s : σ),
      forLoop f (n + m) a s =
        match forLoop f n a s with
        | none => none
        | some s' => forLoop f m (a + n) s' := by
  intro n
  induction n with
  | zero => intro m a s; simp [forLoop]
  | succ n ih =>
    intro m a s
    have e : n + 1 + m = (n + m) + 1 := by omega
    rw [e, forLoop, forLoop]
    cases f a s with
    | none => rfl
    | some s' =>
      have e2 : a + (n + 1) = a + 1 + n := by omega
      show forLoop f (n + m) (a + 1) s' = _
      rw [ih m (a + 1) s', e2]

/-- The inner loop of `RemoveSeam` in the vertical case for an arbitrary start column
`s`: when `s ≥ w - 1` the loop does not run. -/
theorem shift_vertical_any {t : List (List Pixel)} {w h : Nat} (ht : Rect t w h) (i s : Nat)
    (hi : i < h) :
    ∃ img', forLoop (shiftStep false i) (w - 1 - s) s ⟨t⟩ = some img' ∧
      Rect img'.m_table w h ∧
      ∀ c r, rd img'.m_table c r =
        if r = i ∧ s ≤ c ∧ c < w - 1 then rd t (c + 1) i else rd t c r := by
  by_cases hs : s < w
  · exact shift_vertical ht i s hi hs
  · have e : w - 1 - s = 0 := by omega
    refine ⟨⟨t⟩, by rw [e]; rfl, ht, ?_⟩
    intro c r
    have : ¬ (r = i ∧ s ≤ c ∧ c < w - 1) := by omega
    rw [if_neg this]

/-- The first `n` iterations of the outer loop of `RemoveSeam` in the vertical case,
for a seam with at least `n` entries of any value. -/
theorem removeLoop_vertical {img : Image} {w h : Nat} (seam : List Nat)
    (hrect : Rect img.m_table w h) (hw : 1 ≤ w) (n : Nat) (hn : n ≤ h)
    (hlen : n ≤ seam.length) :
    ∃ g, forLoop (removeStep seam false) n 0 img = some g ∧ Rect g.m_table w h ∧
      ∀ c r, rd g.m_table c r =
        if r < n ∧ seam.getD r 0 ≤ c ∧ c < w - 1 then rd img.m_table (c + 1) r
        else rd img.m_table c r := by
  obtain ⟨g, hl, hg, hrd⟩ := forLoop_inv (removeStep seam false)
    (fun i (g : Image) => Rect g.m_table w h ∧
      ∀ c r, rd g.m_table c r =
        if r < i ∧ seam.getD r 0 ≤ c ∧ c < w - 1 then rd img.m_table (c + 1) r
        else rd img.m_table c r)
    n 0 img
    (by
      intro i g _ hi2 ⟨hg, hrd⟩
      have hih : i < h := by omega
      obtain ⟨g', hl', hg', hrd'⟩ := shift_vertical_any hg i (seam.getD i 0) hih
      refine ⟨g', ?_, hg', ?_⟩
      · have hwd : GetImageWidth g = w := hg.1
        simp only [removeStep, getElem?_eq_getD (by omega : i < seam.length), hwd,
          szSub_of_le hw, hl', Option.bind_eq_bind, Option.some_bind, Bool.false_eq_true,
          if_false]
      · intro c r
        rw [hrd']
        by_cases h1 : r = i ∧ seam.getD i 0 ≤ c ∧ c < w - 1
        · obtain ⟨rfl, h2, h3⟩ := h1
          have h4 : r < r + 1 ∧ seam.getD r 0 ≤ c ∧ c < w - 1 := by omega
          have h5 : ¬ (r < r ∧ seam.getD r 0 ≤ c + 1 ∧ c + 1 < w - 1) := by omega
          rw [if_pos ⟨rfl, h2, h3⟩, if_pos h4, hrd, if_neg h5]
        · rw [if_neg h1, hrd]
          by_cases h2 : r < i ∧ seam.getD r 0 ≤ c ∧ c < w - 1
          · have h3 : r < i + 1 ∧ seam.getD r 0 ≤ c ∧ c < w - 1 := by omega
            rw [if_pos h2, if_pos h3]
          · have h3 : ¬ (r < i + 1 ∧ seam.getD r 0 ≤ c ∧ c < w - 1) := by
              intro h4
              by_cases h5 : r = i
              · subst h5; exact h1 ⟨rfl, h4.2⟩
              · exact h2 ⟨by omega, h4.2⟩
            rw [if_neg h2, if_neg h3])
    ⟨hrect, by
      intro c r
      have : ¬ (r < 0 ∧ seam.getD r 0 ≤ c ∧ c < w - 1) := by omega
      rw [if_neg this]⟩
  rw [Nat.zero_add] at hrd
  exact ⟨g, hl, hg, hrd⟩

/-- `RemoveSeam` in the vertical case checks neither the length of the seam nor its
entries: with at least `height` entries of any value it succeeds, and in row `r` the
pixel at column `c` of the result is the original one at `c` (for `c < seam[r]`) or
at `c + 1` (for `seam[r] ≤ c`). -/
theorem RemoveSeam_vertical_any {img : Image} {w h : Nat} (seam : List Nat)
    (hrect : Rect img.m_table w h) (hw : 1 ≤ w) (hlen : h ≤ seam.length) :
    ∃ img', RemoveSeam img seam false = some img' ∧ Rect img'.m_table (w - 1) h ∧
      ∀ c r, c + 1 < w → r < h →
        rd img'.m_table c r = rd img.m_table (if c < seam.getD r 0 then c else c + 1) r := by
  obtain ⟨g, hl, hg, hrd⟩ := removeLoop_vertical seam hrect hw h (le_refl h) hlen
  have hlen' : g.m_table.length = w := hg.1
  refine ⟨⟨g.m_table.dropLast⟩, ?_, rect_dropLast hg, ?_⟩
  · have hne : ¬ (g.m_table.length = 0) := by omega
    simp only [RemoveSeam, GetImageHeight_rect hrect (by omega : 0 < w), hl, popBack, hne,
      Option.bind_eq_bind, Option.some_bind, Bool.false_eq_true, if_false, Bool.not_false,
      if_true]
  · intro c r hc hr
    show rd g.m_table.dropLast c r = _
    rw [rd_dropLast _ _ _ (by omega), hrd]
    by_cases h1 : c < seam.getD r 0
    · have h2 : ¬ (r < h ∧ seam.getD r 0 ≤ c ∧ c < w - 1) := by omega
      rw [if_neg h2, if_pos h1]
    · have h2 : r < h ∧ seam.getD r 0 ≤ c ∧ c < w - 1 := by omega
      rw [if_pos h2, if_neg h1]

/-- With a seam shorter than the height, `RemoveSeam` reads `seam[i]` past the end of
the seam. -/
theorem RemoveSeam_vertical_short {img : Image} {w h : Nat} (seam : List Nat)
    (hrect : Rect img.m_table w h) (hw : 1 ≤ w) (hlen : seam.length < h) :
    RemoveSeam img seam false = none := by
  obtain ⟨g, hl, _, _⟩ := removeLoop_vertical seam hrect hw seam.length (by omega) (le_refl _)
  obtain ⟨m, hm⟩ : ∃ m, h = seam.length + (m + 1) := ⟨h - seam.length - 1, by omega⟩
  have hnone : (seam[seam.length]? : Option Nat) = none := List.getElem?_eq_none (le_refl _)
  have hloop : forLoop (removeStep seam false) h 0 img = none := by
    rw [hm, forLoop_add, hl]
    simp only [forLoop, removeStep, Nat.zero_add, hnone, Option.bind_eq_bind, Option.none_bind]
  simp only [RemoveSeam, GetImageHeight_rect hrect (by omega : 0 < w), hloop,
    Option.bind_eq_bind, Option.some_bind, Option.none_bind, Bool.false_eq_true, if_false]

/-- The entries of the seam beyond the first `height` are never read. -/
theorem RemoveSeam_vertical_take {img : Image} {w h : Nat} (seam : List Nat)
    (hrect : Rect img.m_table w h) (hw : 1 ≤ w) :
    RemoveSeam img (seam.take h) false = RemoveSeam img seam false := by
  have hloop : forLoop (removeStep (seam.take h) false) h 0 img
      = forLoop (removeStep seam false) h 0 img := by
    apply forLoop_congr
    intro i s _ hi
    have e : (seam.take h)[i]? = seam[i]? := by
      rw [List.getElem?_take]
      simp
      omega
    simp only [removeStep, e]
  simp only [RemoveSeam, GetImageHeight_rect hrect (by omega : 0 < w), hloop,
    Option.bind_eq_bind, Option.some_bind, Bool.false_eq_true, if_false]

end UncheckedRemoval

/-- C11, counterexample: on the grid of width 1 and height 5, `RemoveVerticalSeam`
with the seam of zeros is not rejected; it removes the only column and leaves a grid
of width 0. -/
theorem RemoveVerticalSeam_width_one_not_rejected :
    RemoveVerticalSeam grid1x5 [0, 0, 0, 0, 0] = some ⟨[]⟩ ∧
    GetImageWidth ⟨[]⟩ = 0 := by
  decide

/-- C11, as the code does it: `RemoveSeam` has no dimension check.  On a rectangular
grid of width 1 and height `h`, with any seam of at least `h` entries,
`RemoveVerticalSeam` succeeds and leaves the grid without columns (width 0); on the
grid of a single pixel `RemoveHorizontalSeam` succeeds and leaves one empty column
(height 0). -/
theorem RemoveSeam_dimension_unchecked (img : Image) (h : Nat) (seam : List Nat)
    (hrect : Rect img.m_table 1 h) (hlen : h ≤ seam.length) :
    RemoveVerticalSeam img seam = some ⟨[]⟩ ∧
    ∀ (p : Pixel) (s : Nat) (rest : List Nat),
      RemoveHorizontalSeam ⟨[[p]]⟩ (s :: rest) = some ⟨[[]]⟩ := by
  refine ⟨?_, ?_⟩
  · obtain ⟨img', h1, h2, _⟩ := RemoveSeam_vertical_any seam hrect (le_refl 1) hlen
    have e : img'.m_table = [] := List.length_eq_zero.1 h2.1
    have e' : img' = ⟨[]⟩ := by
      cases img'
      simp only at e
      rw [e]
    rw [RemoveVerticalSeam, h1, e']
  · intro p s rest
    simp [RemoveHorizontalSeam, RemoveSeam, GetImageWidth, GetImageHeight, forLoop, removeStep,
      szSub, popBack]

/-- The dimension theorem at the grid of width 1 and height 5. -/
theorem RemoveSeam_dimension_unchecked_witness :
    Rect grid1x5.m_table 1 5 ∧
    (RemoveVerticalSeam grid1x5 [0, 0, 0, 0, 0] = some ⟨[]⟩ ∧
    ∀ (p : Pixel) (s : Nat) (rest : List Nat),
      RemoveHorizontalSeam ⟨[[p]]⟩ (s :: rest) = some ⟨[[]]⟩) :=
  ⟨⟨rfl, by decide⟩,
    RemoveSeam_dimension_unchecked grid1x5 5 [0, 0, 0, 0, 0] ⟨rfl, by decide⟩ (by decide)⟩

/-- C12, counterexample: on the 4 x 4 grid, `RemoveVerticalSeam` with a seam of
length 5 does not fail; it removes column 1 from every row and leaves a grid of
width 3. -/
theorem RemoveVerticalSeam_long_seam_accepted :
    RemoveVerticalSeam grid4x4 [1, 1, 1, 1, 1] =
      some ⟨[[⟨0, 0, 0⟩, ⟨1, 0, 0⟩, ⟨2, 0, 0⟩, ⟨3, 0, 0⟩],
        [⟨20, 0, 0⟩, ⟨21, 0, 0⟩, ⟨22, 0, 0⟩, ⟨23, 0, 0⟩],
        [⟨30, 0, 0⟩, ⟨31, 0, 0⟩, ⟨32, 0, 0⟩, ⟨33, 0, 0⟩]]⟩ := by
  decide

/-- C12, as the code does it: `RemoveSeam` has no check of the seam length.  On a
rectangular grid of width at least 1, a seam longer than the height is accepted: the
entries beyond the first `height` are ignored and the result is the one for the
first `height` entries, a rectangular grid one column narrower; with a seam shorter
than the height the code reads `seam[i]` past the end of the seam (an out-of-range
access, no explicit error). -/
theorem RemoveVerticalSeam_length_unchecked (img : Image) (w h : Nat) (seam : List Nat)
    (hrect : Rect img.m_table w h) (hw : 1 ≤ w) :
    (h < seam.length →
      ∃ img', RemoveVerticalSeam img seam = some img' ∧
        RemoveVerticalSeam img (seam.take h) = some img' ∧
        Rect img'.m_table (w - 1) h) ∧
    (seam.length < h → RemoveVerticalSeam img seam = none) := by
  refine ⟨?_, ?_⟩
  · intro hlong
    obtain ⟨img', h1, h2, _⟩ := RemoveSeam_vertical_any seam hrect hw (by omega)
    refine ⟨img', h1, ?_, h2⟩
    rw [RemoveVerticalSeam, RemoveSeam_vertical_take seam hrect hw]
    exact h1
  · intro hshort
    exact RemoveSeam_vertical_short seam hrect hw hshort

/-- The length theorem at the 4 x 4 grid with a seam of length 5. -/
theorem RemoveVerticalSeam_length_unchecked_witness :
    Rect grid4x4.m_table 4 4 ∧
    ((4 < [1, 1, 1, 1, 1].length →
      ∃ img', RemoveVerticalSeam grid4x4 [1, 1, 1, 1, 1] = some img' ∧
        RemoveVerticalSeam grid4x4 ([1, 1, 1, 1, 1].take 4) = some img' ∧
        Rect img'.m_table (4 - 1) 4) ∧
    ([1, 1, 1, 1, 1].length < 4 → RemoveVerticalSeam grid4x4 [1, 1, 1, 1, 1] = none)) :=
  ⟨⟨rfl, by decide⟩,
    RemoveVerticalSeam_length_unchecked grid4x4 4 4 [1, 1, 1, 1, 1] ⟨rfl, by decide⟩
      (by decide)⟩

/-- C13, counterexample: on the 2 x 2 grid with the seam `[5, 0]`, whose first entry
is out of range, `RemoveVerticalSeam` does not fail; the grid becomes one column
narrower, row 0 losing its last pixel. -/
theorem RemoveVerticalSeam_out_of_range_accepted :
    RemoveVerticalSeam grid2x2 [5, 0] = some ⟨[[⟨1, 0, 0⟩, ⟨4, 0, 0⟩]]⟩ := by
  decide

/-- C13, as the code does it: `RemoveSeam` has no bounds check on the seam entries.
On a rectangular grid of width at least 2, with a seam of length `height` in which
some entry is `≥ width`, `RemoveVerticalSeam` succeeds and leaves a rectangular grid
one column narrower; a row `r` with `seam[r] ≥ width` keeps its first `width - 1`
pixels (its last pixel is deleted), every other row loses the pixel at column
`seam[r]`. -/
theorem RemoveVerticalSeam_bounds_unchecked (img : Image) (w h : Nat) (seam : List Nat)
    (hrect : Rect img.m_table w h) (hw : 2 ≤ w) (hlen : seam.length = h)
    (hout : ∃ r, r < h ∧ w ≤ seam.getD r 0) :
    ∃ img', RemoveVerticalSeam img seam = some img' ∧ Rect img'.m_table (w - 1) h ∧
      ∀ r, r < h → ∀ c, c < w - 1 →
        (w ≤ seam.getD r 0 → GetPixel img' c r = GetPixel img c r) ∧
        (c < seam.getD r 0 → GetPixel img' c r = GetPixel img c r) ∧
        (seam.getD r 0 ≤ c → GetPixel img' c r = GetPixel img (c + 1) r) := by
  obtain ⟨img', h1, h2, h3⟩ := RemoveSeam_vertical_any seam hrect (by omega) (by omega)
  refine ⟨img', h1, h2, ?_⟩
  intro r hr c hc
  have h4 := h3 c r (by omega) hr
  refine ⟨?_, ?_, ?_⟩
  · intro hge
    have hlt : c < seam.getD r 0 := by omega
    rw [if_pos hlt] at h4
    exact h4
  · intro hlt
    rw [if_pos hlt] at h4
    exact h4
  · intro hge
    have : ¬ c < seam.getD r 0 := by omega
    rw [if_neg this] at h4
    exact h4

/-- The bounds theorem at the 2 x 2 grid with the seam `[5, 0]`. -/
theorem RemoveVerticalSeam_bounds_unchecked_witness :
    Rect grid2x2.m_table 2 2 ∧ (∃ r, r < 2 ∧ 2 ≤ [5, 0].getD r 0) ∧
    ∃ img', RemoveVerticalSeam grid2x2 [5, 0] = some img' ∧ Rect img'.m_table (2 - 1) 2 ∧
      ∀ r, r < 2 → ∀ c, c < 2 - 1 →
        (2 ≤ [5, 0].getD r 0 → GetPixel img' c r = GetPixel grid2x2 c r) ∧
        (c < [5, 0].getD r 0 → GetPixel img' c r = GetPixel grid2x2 c r) ∧
        ([5, 0].getD r 0 ≤ c → GetPixel img' c r = GetPixel grid2x2 (c + 1) r) :=
  ⟨⟨rfl, by decide⟩, ⟨0, by decide, by decide⟩,
    RemoveVerticalSeam_bounds_unchecked grid2x2 2 2 [5, 0] ⟨rfl, by decide⟩ (by decide) rfl
      ⟨0, by decide, by decide⟩⟩

end SeamCarving
